import Mathlib

/-!
Verification of the workflow execution engine of
`vscode/src/workflow/workflow-executor.ts` (Cody-Community-Edition).

The TypeScript module is shallowly embedded below.  JavaScript strings are
Lean `String`s, the JavaScript `Map` is an association list with
overwrite-on-set semantics, and the numeric values held by the in-degree map
of `topologicalSort` are `Option Int` (where `none` plays the role of `NaN`,
which arises in JavaScript when `undefined - 1` is computed for an edge
target that is not a known node).  External collaborators (the persistent
shell, the chat client's stream, the approval callback, the token counter,
the context retriever and the VS Code environment) are modelled as oracles
supplied to the interpreter; the webview messages that the engine posts are
collected into an explicit event trace.

Loops that are not structurally recursive in the source (`topologicalSort`'s
work queue, regex scanning, reachability closure) are implemented with an
explicit fuel argument that provably suffices, so that every definition
evaluates by kernel reduction on concrete inputs.
-/

namespace Workflow

/-- JavaScript whitespace (the `\s` class and the characters removed by
`String.prototype.trim`). -/
def jsWs (c : Char) : Bool :=
  c = ' ' ∨ c = '\t' ∨ c = '\n' ∨ c = '\r' ∨ c = '\x0b' ∨ c = '\x0c' ∨
  c = ' ' ∨ c = ' ' ∨ (' ' ≤ c ∧ c ≤ ' ') ∨
  c = ' ' ∨ c = ' ' ∨ c = ' ' ∨ c = ' ' ∨
  c = '　' ∨ c = '﻿'

/-- JavaScript `String.prototype.trim`: drop whitespace from both ends. -/
def jsTrim (s : String) : String :=
  String.mk ((((s.data.dropWhile jsWs).reverse).dropWhile jsWs).reverse)

/-- JavaScript `String.prototype.startsWith`. -/
def jsStartsWith (s pre : String) : Bool :=
  pre.data.isPrefixOf s.data

/-- Infix test on character lists, used to model `String.prototype.includes`. -/
def infixOfList (needle : List Char) : List Char → Bool
  | [] => needle.isPrefixOf []
  | c :: rest => needle.isPrefixOf (c :: rest) || infixOfList needle rest

/-- JavaScript `String.prototype.includes`. -/
def jsIncludes (s sub : String) : Bool :=
  infixOfList sub.data s.data

/-- The left-brace character, written via its code point. -/
def lbrace : Char := Char.ofNat 123

/-- The right-brace character, written via its code point. -/
def rbrace : Char := Char.ofNat 125

/-- Association-list update with JavaScript `Map.set` semantics: overwrite the
existing entry for the key, otherwise append a fresh entry. -/
def setk {α : Type} : List (String × α) → String → α → List (String × α)
  | [], k, v => [(k, v)]
  | (k', v') :: rest, k, v =>
      if k' = k then (k, v) :: rest else (k', v') :: setk rest k v

/-- Lookup with `Map.get` semantics: association-list lookup. -/
def getk {α : Type} (m : List (String × α)) (k : String) : Option α :=
  List.lookup k m

-- ## Data model (webviews/workflow/components/nodes/Nodes.ts, CustomOrderedEdge.ts)

/-- An edge of the workflow graph. -/
structure Edge where
  id : String
  source : String
  target : String
deriving DecidableEq, Inhabited

/-- The node kinds of the `NodeType` enum.  At runtime the TypeScript enum
values are plain strings, so a node coming from the webview can carry a string
outside the enum; `other` represents such a value and is what the
orchestrator's `default` branch observes. -/
inductive NodeType where
  | cli
  | llm
  | preview
  | input
  | searchContext
  | other (s : String)
deriving DecidableEq, Inhabited

/-- String value of a `NodeType`, as interpolated by the orchestrator's
`Unknown node type` message. -/
def NodeType.str : NodeType → String
  | .cli => "cli"
  | .llm => "llm"
  | .preview => "preview"
  | .input => "input"
  | .searchContext => "search-context"
  | .other s => s

/-- The node payload fields the executor reads.  `content` is the command /
prompt / literal text (the code only ever distinguishes it by truthiness, so
the `undefined` case is represented by `""`); `active` and
`needsUserApproval` are optional booleans tested with `=== false` and by
truthiness respectively.  The LLM generation parameters (`maxTokens`,
`temperature`, `fast`) are passed through to the chat client unchanged and do
not influence control flow, so they are not tracked. -/
structure NodeData where
  title : String
  content : String
  active : Option Bool
  needsUserApproval : Option Bool
deriving DecidableEq, Inhabited

/-- A workflow node. -/
structure Node where
  id : String
  type : NodeType
  data : NodeData
deriving DecidableEq, Inhabited

-- ## createEdgeIndex

/-- The three adjacency maps built once per run. -/
structure IndexedEdges where
  bySource : List (String × List Edge)
  byTarget : List (String × List Edge)
  byId : List (String × Edge)

/-- Lookup in an adjacency map, with `|| []` for a missing key. -/
def getEdges (m : List (String × List Edge)) (k : String) : List Edge :=
  (getk m k).getD []

/-- The function `createEdgeIndex`: one pass over the edge list, pushing each edge onto the
lists for its source and target and recording it by id. -/
def createEdgeIndex (edges : List Edge) : IndexedEdges :=
  edges.foldl
    (fun acc e =>
      { bySource := setk acc.bySource e.source (getEdges acc.bySource e.source ++ [e])
        byTarget := setk acc.byTarget e.target (getEdges acc.byTarget e.target ++ [e])
        byId := setk acc.byId e.id e })
    ⟨[], [], []⟩

-- ## topologicalSort

/-- In-degree map: JavaScript number values are `some k`; `none` is `NaN`
(produced by decrementing a missing entry). -/
abbrev IndMap := List (String × Option Int)

/-- Count of entries holding a strictly positive number; this is the part of
the termination measure contributed by the in-degree map. -/
def posCount (m : IndMap) : Nat :=
  (m.filter (fun p => match p.2 with | some k => decide (0 < k) | none => false)).length

/-- The loop body of `topologicalSort` over the out-edges of the dequeued
node: decrement each edge target's in-degree (a missing or `NaN` entry stays
`NaN`) and enqueue targets whose in-degree becomes exactly `0`. -/
def processEdges : List Edge → IndMap → List String → IndMap × List String
  | [], ind, qu => (ind, qu)
  | e :: es, ind, qu =>
      let nv : Option Int :=
        match getk ind e.target with
        | some (some k) => some (k - 1)
        | _ => none
      let ind' := setk ind e.target nv
      let qu' := if nv = some 0 then qu ++ [e.target] else qu
      processEdges es ind' qu'

/-- The `while (queue.length > 0)` loop of `topologicalSort`.  The fuel is set
by the caller to the exact termination measure (`queue length + posCount`),
which `loopTS_measure`-style lemmas below show never runs out. -/
def loopTS (idx : IndexedEdges) : Nat → List String → IndMap → List String → List String
  | 0, _, _, res => res
  | _ + 1, [], _, res => res
  | fuel + 1, n :: rest, ind, res =>
      let step := processEdges (getEdges idx.bySource n) ind rest
      loopTS idx fuel step.2 step.1 (res ++ [n])

/-- The JavaScript `Map` built by `new Map(nodes.map(node => [node.id, node]))`
keeps the last node for each id. -/
def lastNodeWithId (nodes : List Node) (i : String) : Option Node :=
  nodes.foldl (fun acc n => if n.id = i then some n else acc) none

/-- The function `topologicalSort` (Kahn's algorithm, FIFO queue seeded with the
zero-in-degree nodes in list order; ids are finally mapped back to nodes,
`filter(Boolean)` dropping ids without a node). -/
def topologicalSort (nodes : List Node) (edges : List Edge) : List Node :=
  let idx := createEdgeIndex edges
  let ind0 : IndMap :=
    nodes.foldl (fun m n => setk m n.id (some ((getEdges idx.byTarget n.id).length : Int))) []
  let srcNodes := nodes.filter (fun n => getk ind0 n.id = some (some 0))
  let queue := srcNodes.map (fun n => n.id)
  let resultIds := loopTS idx (queue.length + posCount ind0) queue ind0 []
  resultIds.filterMap (fun i => lastNodeWithId nodes i)

-- ## replaceIndexedInputs

/-- Numeric value of a digit string, as `parseInt(index, 10)` computes it for
a match of `\d+` (precision loss on huge literals cannot change the
in-range/out-of-range outcome, so `Nat` is adequate). -/
def digitsVal (ds : List Char) : Nat :=
  ds.foldl (fun a c => 10 * a + (c.toNat - 48)) 0

/-- Replacement text produced for one `${n}` match: the (1-based) n-th parent
output when in range, else the empty string. -/
def substOut (outs : List String) (ds : List Char) : String :=
  let n := digitsVal ds
  if 1 ≤ n ∧ n - 1 < outs.length then outs.getD (n - 1) "" else ""

/-- Attempt to match the regex `\$\{(\d+)\}` at the start of the character
list: on success, return the captured digits and the characters after the
closing brace.  The digit run is maximal (`\d+` is greedy, and a shorter run
cannot be followed by `}`). -/
def parsePlaceholder (l : List Char) : Option (List Char × List Char) :=
  match l with
  | c :: c2 :: rest2 =>
      if c = '$' ∧ c2 = lbrace then
        let ds := rest2.takeWhile Char.isDigit
        if ds.isEmpty then none
        else
          match rest2.drop ds.length with
          | c3 :: rest3 => if c3 = rbrace then some (ds, rest3) else none
          | [] => none
      else none
  | _ => none

/-- Scanner for the global regex replace of `${(\d+)}`.  At each position it
either matches a placeholder and substitutes, or copies one character and
moves on, exactly like the regex engine's scan.  Each step consumes at least
one input character, so fuel equal to the input length suffices; with fuel
`0` the rest is returned unchanged (unreachable from
`replaceIndexedInputs`). -/
def riScan (outs : List String) : Nat → List Char → List Char
  | 0, l => l
  | _ + 1, [] => []
  | fuel + 1, c :: rest =>
      match parsePlaceholder (c :: rest) with
      | some (ds, rest3) => (substOut outs ds).data ++ riScan outs fuel rest3
      | none => c :: riScan outs fuel rest

/-- The function `replaceIndexedInputs`: substitute `${n}` placeholders by the n-th
(1-based) parent output, or the empty string when out of range. -/
def replaceIndexedInputs (template : String) (parentOutputs : List String) : String :=
  String.mk (riScan parentOutputs template.data.length template.data)

-- ## Sanitizers

/-- First stage of `sanitizeForShell`: `replace(/\\/g, '\\\\')` doubles every
backslash. -/
def dupBackslash : List Char → List Char
  | [] => []
  | '\\' :: rest => '\\' :: '\\' :: dupBackslash rest
  | c :: rest => c :: dupBackslash rest

/-- Second stage of both sanitizers: `replace(/\$\{/g, '\\${')` escapes each
`${` occurrence (scanning resumes after the match). -/
def escDollarBrace : List Char → List Char
  | [] => []
  | [c] => [c]
  | c :: c2 :: rest2 =>
      if c = '$' ∧ c2 = lbrace then '\\' :: '$' :: lbrace :: escDollarBrace rest2
      else c :: escDollarBrace (c2 :: rest2)

/-- The function `sanitizeForShell`: escape backslashes, then `${` sequences. -/
def sanitizeForShell (input : String) : String :=
  String.mk (escDollarBrace (dupBackslash input.data))

/-- The function `sanitizeForPrompt`: escape only `${` sequences. -/
def sanitizeForPrompt (input : String) : String :=
  String.mk (escDollarBrace input.data)

-- ## combineParentOutputsByConnectionOrder

/-- The call `replace(/\r\n/g, '\n')`: normalize CRLF pairs, left to right. -/
def crlfToLf : List Char → List Char
  | '\r' :: '\n' :: rest => '\n' :: crlfToLf rest
  | c :: rest => c :: crlfToLf rest
  | [] => []

/-- Normalization applied to each recorded parent output. -/
def normOutput (s : String) : String :=
  jsTrim (String.mk (crlfToLf s.data))

/-- The function `combineParentOutputsByConnectionOrder`: one entry per incoming edge (in
edge-list order as recorded in `byTarget`); a missing output yields `""`, a
present one is CRLF-normalized and trimmed.  The trailing
`filter(output => output !== undefined)` of the source is a no-op (the map
never yields `undefined`) and is not represented. -/
def combineParentOutputs (nodeId : String) (idx : IndexedEdges)
    (nodeOutputs : List (String × String)) : List String :=
  (getEdges idx.byTarget nodeId).map
    (fun e =>
      match getk nodeOutputs e.source with
      | none => ""
      | some output => normOutput output)


-- ## External collaborators (oracles)

/-- A message of the chat client's stream, as consumed by `executeLLMNode`'s
`for await` loop.  A JavaScript `Error` is represented by its `name` and
`message`. -/
inductive StreamMsg where
  | change (text : String)
  | complete
  | streamError (name msg : String)
deriving DecidableEq, Inhabited

/-- The oracles standing for the engine's external collaborators.  `shellExec`
is `PersistentShell.execute` (an `Except.error` being a rejected promise whose
message, when the abort signal fired, contains `aborted`); `approval` is the
optional `command` field returned by the approval handler; `llmStream` gives
the chat stream produced for a prompt (timing is abstracted: a stream that
never settles is what loses the race against the 30-second timer);
`tokCount` is `TokenCounterUtils.encode(...).length`; `searchResult` is the
text produced by the context-retrieval collaborators for a query. -/
structure Oracles where
  shellAvailable : Bool
  isTrusted : Bool
  homeDir : String
  pathSep : String
  shellExec : String → Except String String
  approval : String → Option String
  llmStream : String → List StreamMsg
  tokCount : String → Nat
  searchResult : String → String

-- ## Events (messages posted to the webview)

/-- The `status` values of `node_execution_status` messages. -/
inductive NodeStatus where
  | running
  | pendingApproval
  | completed
  | error
  | interrupted
deriving DecidableEq, Inhabited

/-- A message posted to the webview. -/
inductive Msg where
  | executionStarted
  | nodeStatus (nodeId : String) (status : NodeStatus) (result : Option String)
  | tokenCount (nodeId : String) (count : Nat)
  | executionCompleted
deriving DecidableEq, Inhabited

/-- Whether the status is one of the two failure statuses a CLI failure
produces. -/
def NodeStatus.isFailure : NodeStatus → Bool
  | .error => true
  | .interrupted => true
  | _ => false

/-- Number of `node_execution_status` events carrying a failure status. -/
def failCount (evs : List Msg) : Nat :=
  (evs.filter (fun ev => match ev with
    | .nodeStatus _ st _ => st.isFailure
    | _ => false)).length

/-- Whether the trace holds any `node_execution_status` event for the id. -/
def hasStatusFor (evs : List Msg) (i : String) : Bool :=
  evs.any (fun ev => match ev with
    | .nodeStatus i' _ _ => i' = i
    | _ => false)

-- ## executeCLINode

/-- The fixed denylist `commandsNotAllowed`. -/
def commandsNotAllowed : List String :=
  ["rm", "chmod", "shutdown", "history", "user", "sudo", "su", "passwd",
   "chown", "chgrp", "kill", "reboot", "poweroff", "init", "systemctl",
   "journalctl", "dmesg", "lsblk", "lsmod", "modprobe", "insmod", "rmmod",
   "lsusb", "lspci"]

/-- The call `replaceAll` over `/(\s~\/)/g`: a whitespace character
followed by `~/` becomes a space, the home directory and the path separator. -/
def tildeChars (homeDir pathSep : String) : List Char → List Char
  | c1 :: c2 :: c3 :: rest =>
      if jsWs c1 ∧ c2 = '~' ∧ c3 = '/' then
        (' ' :: (homeDir ++ pathSep).data) ++ tildeChars homeDir pathSep rest
      else c1 :: tildeChars homeDir pathSep (c2 :: c3 :: rest)
  | l => l

/-- The `filteredCommand` computation of `executeCLINode`. -/
def tildeExpand (homeDir pathSep : String) (s : String) : String :=
  String.mk (tildeChars homeDir pathSep s.data)

/-- The call `replace` over `/(?<!\\)"/g`: every double quote whose preceding input
character is not a backslash becomes a single quote (the lookbehind inspects
the original string, hence the explicit previous-character argument). -/
def quoteChars (prev : Option Char) : List Char → List Char
  | [] => []
  | c :: rest =>
      (if c = '"' ∧ prev ≠ some '\\' then '\'' else c) :: quoteChars (some c) rest

/-- The `convertQuotes` computation of `executeCLINode`. -/
def convertQuotes (s : String) : String :=
  String.mk (quoteChars none s.data)

/-- Result of `executeCLINode`: the webview messages it posted, whether it
disposed the shell itself, and its return value or thrown error. -/
instance : DecidableEq (Except String String) := fun a b =>
  match a, b with
  | .ok x, .ok y => decidable_of_iff (x = y) (by simp)
  | .error x, .error y => decidable_of_iff (x = y) (by simp)
  | .ok _, .error _ => isFalse (by simp)
  | .error _, .ok _ => isFalse (by simp)

structure CLIResult where
  events : List Msg
  disposed : Bool
  out : Except String String
deriving DecidableEq

/-- The function `executeCLINode`.  Notable detail, verified against the source: the
denylist test is `commandsNotAllowed.some(cmd => convertQuotes.startsWith(cmd))`
— it inspects `convertQuotes`, not `commandToExecute`, so a replacement
command supplied by the approval callback is never itself checked.  The
`abortSignal` parameter is absorbed into the `shellExec` oracle. -/
def executeCLINode (o : Oracles) (node : Node) : CLIResult :=
  if ¬ (o.shellAvailable ∧ o.isTrusted) then
    ⟨[], false, .error "Shell command is not supported in your current workspace."⟩
  else if jsTrim node.data.content = "" then
    ⟨[], false, .error "CLI Node requires a non-empty command"⟩
  else
    let filtered := tildeExpand o.homeDir o.pathSep node.data.content
    let conv := convertQuotes filtered
    let approvalStep : List Msg × String :=
      if node.data.needsUserApproval = some true then
        ([.nodeStatus node.id .pendingApproval (some conv)],
          match o.approval node.id with
          | some c => if c = "" then conv else c
          | none => conv)
      else ([], conv)
    let evs := approvalStep.1
    let commandToExecute := approvalStep.2
    if commandsNotAllowed.any (fun cmd => jsStartsWith conv cmd) then
      ⟨evs, false, .error "Cody cannot execute this command"⟩
    else
      match o.shellExec commandToExecute with
      | .ok r => ⟨evs, false, .ok r⟩
      | .error m => ⟨evs, true, .error ("CLI Node execution failed: " ++ m)⟩

-- ## executeLLMNode

/-- Outcome of the promise wrapping the stream consumption. -/
inductive LLMOutcome where
  | resolved (s : String)
  | rejected (name msg : String)
  | pending
deriving DecidableEq

/-- The `for await` loop over the stream: a `change` first checks whether the
text accumulated so far already exceeds 1,000,000 characters (rejecting with
`Response too large` before appending), `complete` resolves with the joined
accumulator, `error` rejects with the carried error.  An exhausted stream
without settlement leaves the promise pending. -/
def processStream (acc : List String) : List StreamMsg → LLMOutcome
  | [] => .pending
  | .change t :: rest =>
      if (String.join acc).length > 1000000 then .rejected "Error" "Response too large"
      else processStream (acc ++ [t]) rest
  | .complete :: _ => .resolved (String.join acc)
  | .streamError n m :: _ => .rejected n m

/-- The function `executeLLMNode`: empty prompt check, then the race of the stream promise
against the 30-second timer (a pending stream is the case the timer wins),
with the `catch` wrapper distinguishing `AbortError`. -/
def executeLLMNode (o : Oracles) (node : Node) : Except String String :=
  if node.data.content = "" then
    .error ("No prompt specified for LLM node " ++ node.id ++ " with " ++ node.data.title)
  else
    match processStream [] (o.llmStream node.data.content) with
    | .resolved s => .ok s
    | .pending => .error "Failed to execute LLM node: LLM request timed out"
    | .rejected n m =>
        if n = "AbortError" then .error "Workflow execution aborted"
        else .error ("Failed to execute LLM node: " ++ m)

-- ## Inactive-node propagation

/-- Forward successors of the set that are not yet in it, deduplicated. -/
def newSuccs (edges : List Edge) (s : List String) : List String :=
  (((edges.filter (fun e => e.source ∈ s ∧ e.target ∉ s)).map
    (fun e => e.target)).dedup).filter (fun t => t ∉ s)

/-- Iterated forward closure with fuel. -/
def closureIter (edges : List Edge) : Nat → List String → List String
  | 0, s => s
  | fuel + 1, s =>
      let n := newSuccs edges s
      if n = [] then s else closureIter edges fuel (s ++ n)

/-- Modelled from the spec: `getInactiveNodes` (imported from
`webviews/workflow/components/Flow`) is not part of the source snapshot; the
spec describes it as computing, for a node marked inactive, "the set of all
nodes reachable forward through edges (transitive dependents)" by traversal
over the source-indexed edges.  It is modelled as the forward-reachability
closure of the start node (the start node included), computed by saturation;
`edges.length + 1` rounds suffice because every productive round adds at
least one of the at most `edges.length` distinct edge targets. -/
def getInactiveNodes (edges : List Edge) (nodeId : String) : List String :=
  closureIter edges (edges.length + 1) [nodeId]

/-- The `allInactiveNodes` set of `executeWorkflow`: the union of the
closures of every node whose `active` field is `false` (the JavaScript `Set`
is a duplicate-free list here). -/
def allInactiveNodes (nodes : List Node) (edges : List Edge) : List String :=
  nodes.foldl
    (fun acc n =>
      if n.data.active = some false then
        acc ++ (getInactiveNodes edges n.id).filter (fun i => i ∉ acc)
      else acc)
    []

-- ## The orchestrator

/-- Number of distinct edge targets not yet absorbed into the set; the
termination potential of the closure iteration. -/
def potential (edges : List Edge) (s : List String) : Nat :=
  (((edges.map (fun e => e.target)).dedup).filter (fun t => decide (t ∉ s))).length

/-- Outcome of `executeWorkflow`: normal return, or a thrown error (the
rejection of its promise). -/
inductive RunOutcome where
  | completed
  | threw (msg : String)
deriving DecidableEq

/-- Final state of a run: the full event trace, whether the persistent shell
was disposed, the outcome, and the recorded node outputs. -/
structure RunResult where
  events : List Msg
  disposed : Bool
  outcome : RunOutcome
  outputs : List (String × String)
deriving DecidableEq

/-- The node actually passed to `executeCLINode`: the original node with its
`content` replaced by the rendered command (parent outputs combined, shell
sanitization and positional substitution applied; an empty template renders
to the empty command). -/
def renderedCLINode (idx : IndexedEdges) (outs : List (String × String)) (node : Node) : Node :=
  let inputs := (combineParentOutputs node.id idx outs).map sanitizeForShell
  let command :=
    if node.data.content = "" then "" else replaceIndexedInputs node.data.content inputs
  { node with data := { node.data with content := command } }

/-- The node actually passed to `executeLLMNode`: `content` replaced by the
rendered prompt (prompt sanitization). -/
def renderedLLMNode (idx : IndexedEdges) (outs : List (String × String)) (node : Node) : Node :=
  let inputs := (combineParentOutputs node.id idx outs).map sanitizeForPrompt
  let prompt :=
    if node.data.content = "" then "" else replaceIndexedInputs node.data.content inputs
  { node with data := { node.data with content := prompt } }

/-- The per-node loop of `executeWorkflow` over the sorted node list.
Inactive-closure members are skipped without any event.  A CLI failure
disposes the shell, posts the failure status (`interrupted` when the message
contains `aborted`) and `execution_completed`, and returns.  An LLM failure
is rethrown: the run ends with no further events.  An unknown node type
disposes the shell and throws.  On exhaustion the shell is disposed and
`execution_completed` posted. -/
def runNodes (o : Oracles) (idx : IndexedEdges) (skip : List String) :
    List Node → List (String × String) → List Msg → Bool → RunResult
  | [], outs, evs, _ => ⟨evs ++ [.executionCompleted], true, .completed, outs⟩
  | node :: rest, outs, evs, disp =>
      if node.id ∈ skip then runNodes o idx skip rest outs evs disp
      else
        let evs1 := evs ++ [.nodeStatus node.id .running none]
        match node.type with
        | .cli =>
            let r := executeCLINode o (renderedCLINode idx outs node)
            match r.out with
            | .ok result =>
                runNodes o idx skip rest (setk outs node.id result)
                  (evs1 ++ r.events ++ [.nodeStatus node.id .completed (some result)])
                  (disp || r.disposed)
            | .error m =>
                ⟨evs1 ++ r.events ++
                    [.nodeStatus node.id
                      (if jsIncludes m "aborted" then .interrupted else .error) (some m),
                      .executionCompleted],
                  true, .completed, outs⟩
        | .llm =>
            match executeLLMNode o (renderedLLMNode idx outs node) with
            | .ok result =>
                runNodes o idx skip rest (setk outs node.id result)
                  (evs1 ++ [.nodeStatus node.id .completed (some result)]) disp
            | .error m => ⟨evs1, disp, .threw m, outs⟩
        | .preview =>
            let input := String.intercalate "\n" (combineParentOutputs node.id idx outs)
            let result := jsTrim input
            runNodes o idx skip rest (setk outs node.id result)
              (evs1 ++ [.tokenCount node.id (o.tokCount result),
                .nodeStatus node.id .completed (some result)]) disp
        | .input =>
            let inputs := combineParentOutputs node.id idx outs
            let text :=
              if node.data.content = "" then ""
              else replaceIndexedInputs node.data.content inputs
            let result := jsTrim text
            runNodes o idx skip rest (setk outs node.id result)
              (evs1 ++ [.nodeStatus node.id .completed (some result)]) disp
        | .searchContext =>
            let inputs := combineParentOutputs node.id idx outs
            let text :=
              if node.data.content = "" then ""
              else replaceIndexedInputs node.data.content inputs
            let result := o.searchResult text
            runNodes o idx skip rest (setk outs node.id result)
              (evs1 ++ [.nodeStatus node.id .completed (some result)]) disp
        | .other s => ⟨evs1, true, .threw ("Unknown node type: " ++ s), outs⟩

/-- The function `executeWorkflow`: build the indices and the inactive skip-set, sort the
nodes, post `execution_started`, then run the per-node loop. -/
def executeWorkflow (o : Oracles) (nodes : List Node) (edges : List Edge) : RunResult :=
  let idx := createEdgeIndex edges
  let skip := allInactiveNodes nodes edges
  let sorted := topologicalSort nodes edges
  runNodes o idx skip sorted [] [.executionStarted] false

-- ## Graph-theoretic notions used by the statements

/-- Direct edge relation of an edge list: `a` precedes `b`. -/
def edgeStep (edges : List Edge) (a b : String) : Prop :=
  ∃ e ∈ edges, e.source = a ∧ e.target = b

/-- Absence of directed cycles among the given edges: no node reaches itself
by a nonempty path. -/
def Acyclic (edges : List Edge) : Prop :=
  ∀ x, ¬ Relation.TransGen (edgeStep edges) x x

/-- The id list of a node list. -/
def nodeIds (nodes : List Node) : List String :=
  nodes.map (fun n => n.id)

/-- In-degree of an id: the number of edges targeting it. -/
def inCnt (edges : List Edge) (t : String) : Nat :=
  (edges.filter (fun e => decide (e.target = t))).length

/-- Number of edges into `t` whose source has not been emitted yet. -/
def cntRem (edges : List Edge) (res : List String) (t : String) : Nat :=
  (edges.filter (fun e => decide (e.target = t ∧ e.source ∉ res))).length

/-- Number of edges of a pending out-edge list targeting `t`. -/
def cntTodo (todo : List Edge) (t : String) : Nat :=
  (todo.filter (fun e => decide (e.target = t))).length

/-- Contribution of one in-degree-map value to `posCount`. -/
def cVal : Option (Option Int) → Nat
  | some (some k) => if 0 < k then 1 else 0
  | _ => 0

-- ## Loop invariants for `topologicalSort`

/-- Invariant of the Kahn loop that holds for arbitrary graphs whose node ids
are distinct: the emitted list and the queue are duplicate-free node ids,
every id in them has a nonpositive recorded in-degree, every numeric map
entry belongs to a node, and everything emitted or queued is reachable from
a zero-in-degree node. -/
structure GInv (edges : List Edge) (ids : List String) (qu res : List String)
    (ind : IndMap) : Prop where
  nodupRQ : (res ++ qu).Nodup
  subsetRQ : ∀ x ∈ res ++ qu, x ∈ ids
  nonpos : ∀ t ∈ res ++ qu, ∃ k : Int, k ≤ 0 ∧ getk ind t = some (some k)
  intdom : ∀ t k, getk ind t = some (some k) → t ∈ ids
  reach : ∀ t ∈ res ++ qu, ∃ s ∈ ids, inCnt edges s = 0 ∧
    Relation.ReflTransGen (edgeStep edges) s t

/-- Invariant of the Kahn loop for well-formed graphs (distinct node ids,
edge endpoints all nodes): the map records, for every node, the number of its
in-edges whose source is still unemitted; a node is emitted or queued exactly
when that count is zero; queued nodes have all predecessors emitted; emitted
nodes appear after all their predecessors. -/
structure KInv (edges : List Edge) (ids : List String) (qu res : List String)
    (ind : IndMap) : Prop where
  nodupRQ : (res ++ qu).Nodup
  subsetRQ : ∀ x ∈ res ++ qu, x ∈ ids
  count : ∀ t ∈ ids, getk ind t = some (some ((cntRem edges res t : Nat) : Int))
  ready : ∀ t ∈ ids, (t ∈ res ∨ t ∈ qu ↔ cntRem edges res t = 0)
  fence : ∀ e ∈ edges, e.target ∈ qu → e.source ∈ res
  order : ∀ e ∈ edges, e.target ∈ res → [e.source, e.target].Sublist res

/-- Intermediate invariant while the out-edges of the just-emitted node `n`
are processed: `todo` is the unprocessed remainder of `n`'s out-edge list and
contributes to the recorded counts. -/
structure JInv (edges : List Edge) (ids : List String) (res : List String)
    (todo : List Edge) (qu : List String) (ind : IndMap) : Prop where
  nodupRQ : (res ++ qu).Nodup
  subsetRQ : ∀ x ∈ res ++ qu, x ∈ ids
  count : ∀ t ∈ ids,
    getk ind t = some (some ((cntRem edges res t + cntTodo todo t : Nat) : Int))
  ready : ∀ t ∈ ids, (t ∈ res ∨ t ∈ qu ↔ cntRem edges res t + cntTodo todo t = 0)
  fence : ∀ e ∈ edges, e.target ∈ qu → e.source ∈ res
  order : ∀ e ∈ edges, e.target ∈ res → [e.source, e.target].Sublist res

-- ## Named stages of `topologicalSort` (abbreviations of its let-bindings)

/-- The initial in-degree map of `topologicalSort`. -/
def tsInd0 (nodes : List Node) (edges : List Edge) : IndMap :=
  nodes.foldl
    (fun m n => setk m n.id (some (((getEdges (createEdgeIndex edges).byTarget n.id).length : Int))))
    []

/-- The initial queue of `topologicalSort`: ids of the zero-in-degree nodes
in list order. -/
def tsQueue (nodes : List Node) (edges : List Edge) : List String :=
  (nodes.filter (fun n => getk (tsInd0 nodes edges) n.id = some (some 0))).map (fun n => n.id)

/-- The id sequence produced by the Kahn loop of `topologicalSort`. -/
def tsResIds (nodes : List Node) (edges : List Edge) : List String :=
  loopTS (createEdgeIndex edges)
    ((tsQueue nodes edges).length + posCount (tsInd0 nodes edges))
    (tsQueue nodes edges) (tsInd0 nodes edges) []

-- ## Stream measures (for the LLM size ceiling)

/-- Length of the longest `change` chunk of a stream. -/
def maxChunkLen (msgs : List StreamMsg) : Nat :=
  msgs.foldr (fun m acc => match m with | .change t => max t.length acc | _ => acc) 0

/-- Total length of the `change` chunks of a stream. -/
def sumChangeLens (msgs : List StreamMsg) : Nat :=
  msgs.foldr (fun m acc => (match m with | .change t => t.length | _ => 0) + acc) 0

/-- Whether a stream message is a `change`. -/
def StreamMsg.isChange : StreamMsg → Bool
  | .change _ => true
  | _ => false

-- ## Canonical-fuel regex scan

/-- The scan with its canonical fuel (enough for the whole input). -/
def riRun (outs : List String) (l : List Char) : List Char :=
  riScan outs l.length l

-- ## Concrete instances used by witnesses and counterexamples

/-- A benign oracle environment: trusted workspace, a shell that succeeds on
`echo hi` and fails otherwise, an LLM stream that errors, simple token
counting. -/
def oBase : Oracles where
  shellAvailable := true
  isTrusted := true
  homeDir := "/home/u"
  pathSep := "/"
  shellExec := fun c => if c = "echo hi" then .ok "hi" else .error "boom"
  approval := fun _ => none
  llmStream := fun _ => [.streamError "Error" "boom"]
  tokCount := fun s => s.length
  searchResult := fun _ => ""

/-- Oracle whose approval callback replaces the command with a denylisted
one, and whose shell accepts exactly that replacement. -/
def oApprove : Oracles :=
  { oBase with
    approval := fun _ => some "sudo rm -rf /tmp/x"
    shellExec := fun c => if c = "sudo rm -rf /tmp/x" then .ok "done" else .error "no" }

/-- A response of 1,000,001 characters delivered as a single chunk. -/
def bigChunk : String := String.mk (List.replicate 1000001 'a')

/-- Oracle whose LLM stream delivers one oversized chunk and completes. -/
def oBigChunk : Oracles :=
  { oBase with llmStream := fun _ => [.change bigChunk, .complete] }

/-- An input node fixture. -/
def inputNode (i content : String) : Node :=
  ⟨i, .input, ⟨"t", content, none, none⟩⟩

/-- An LLM node fixture. -/
def llmNode (i content : String) : Node :=
  ⟨i, .llm, ⟨"t", content, none, none⟩⟩

/-- A CLI node fixture (no approval). -/
def cliNode (i content : String) : Node :=
  ⟨i, .cli, ⟨"t", content, none, none⟩⟩

-- ## Helper lemmas: association lists

theorem getk_nil {α : Type} (k : String) : getk ([] : List (String × α)) k = none := rfl

theorem getk_cons {α : Type} (a k : String) (b : α) (rest : List (String × α)) :
    getk ((a, b) :: rest) k = if k = a then some b else getk rest k := by
  by_cases h : k = a
  · subst h; simp [getk, List.lookup]
  · have hb : (k == a) = false := beq_eq_false_iff_ne.mpr h
    simp [getk, List.lookup, hb, h]

theorem getk_setk {α : Type} (m : List (String × α)) (k k' : String) (v : α) :
    getk (setk m k v) k' = if k' = k then some v else getk m k' := by
  induction m with
  | nil =>
    show getk [(k, v)] k' = _
    rw [getk_cons]
  | cons p rest ih =>
    obtain ⟨a, b⟩ := p
    simp only [setk]
    by_cases hak : a = k
    · subst hak
      rw [if_pos rfl, getk_cons, getk_cons]
      by_cases h' : k' = a <;> simp [h']
    · rw [if_neg hak, getk_cons, getk_cons, ih]
      by_cases h' : k' = a
      · subst h'
        have hkk : ¬ (k' = k) := hak
        simp [hkk]
      · simp [h']

-- ## Helper lemmas: the edge index

theorem getEdges_byTarget (edges : List Edge) (t : String) :
    getEdges (createEdgeIndex edges).byTarget t
      = edges.filter (fun e => decide (e.target = t)) := by
  suffices h : ∀ (es : List Edge) (acc : IndexedEdges) (t : String),
      getEdges (es.foldl (fun acc e =>
        { bySource := setk acc.bySource e.source (getEdges acc.bySource e.source ++ [e])
          byTarget := setk acc.byTarget e.target (getEdges acc.byTarget e.target ++ [e])
          byId := setk acc.byId e.id e }) acc).byTarget t
        = getEdges acc.byTarget t ++ es.filter (fun e => decide (e.target = t)) by
    simpa [createEdgeIndex, getEdges, getk_nil] using h edges ⟨[], [], []⟩ t
  intro es
  induction es with
  | nil => intro acc t; simp
  | cons e rest ih =>
    intro acc t
    rw [List.foldl_cons, ih]
    by_cases het : e.target = t
    · subst het
      simp [getEdges, getk_setk, List.filter_cons]
    · simp [getEdges, getk_setk, List.filter_cons, het, Ne.symm het]

theorem getEdges_bySource (edges : List Edge) (n : String) :
    getEdges (createEdgeIndex edges).bySource n
      = edges.filter (fun e => decide (e.source = n)) := by
  suffices h : ∀ (es : List Edge) (acc : IndexedEdges) (n : String),
      getEdges (es.foldl (fun acc e =>
        { bySource := setk acc.bySource e.source (getEdges acc.bySource e.source ++ [e])
          byTarget := setk acc.byTarget e.target (getEdges acc.byTarget e.target ++ [e])
          byId := setk acc.byId e.id e }) acc).bySource n
        = getEdges acc.bySource n ++ es.filter (fun e => decide (e.source = n)) by
    simpa [createEdgeIndex, getEdges, getk_nil] using h edges ⟨[], [], []⟩ n
  intro es
  induction es with
  | nil => intro acc n; simp
  | cons e rest ih =>
    intro acc n
    rw [List.foldl_cons, ih]
    by_cases hes : e.source = n
    · subst hes
      simp [getEdges, getk_setk, List.filter_cons]
    · simp [getEdges, getk_setk, List.filter_cons, hes, Ne.symm hes]

-- ## Helper lemmas: the in-degree map and the termination measure

theorem posCount_nil : posCount [] = 0 := rfl

theorem posCount_cons (a : String) (b : Option Int) (m : IndMap) :
    posCount ((a, b) :: m) = cVal (some b) + posCount m := by
  cases b with
  | none => simp [posCount, cVal, List.filter_cons]
  | some k =>
    by_cases hk : 0 < k
    · simp [posCount, cVal, List.filter_cons, hk]
      omega
    · simp [posCount, cVal, List.filter_cons, hk]

theorem posCount_setk (m : IndMap) (k : String) (v : Option Int) :
    posCount (setk m k v) + cVal (getk m k) = posCount m + cVal (some v) := by
  induction m with
  | nil =>
    show posCount [(k, v)] + cVal (getk ([] : IndMap) k) = _
    rw [posCount_cons, getk_nil, posCount_nil]
    simp [cVal]
  | cons p rest ih =>
    obtain ⟨a, b⟩ := p
    simp only [setk]
    by_cases hak : a = k
    · subst hak
      rw [if_pos rfl, posCount_cons, posCount_cons, getk_cons, if_pos rfl]
      omega
    · rw [if_neg hak, posCount_cons, posCount_cons,
        getk_cons, if_neg (fun hh : k = a => hak hh.symm)]
      omega

theorem processEdges_measure : ∀ (outs : List Edge) (ind : IndMap) (qu : List String),
    (processEdges outs ind qu).2.length + posCount (processEdges outs ind qu).1
      ≤ qu.length + posCount ind := by
  intro outs
  induction outs with
  | nil => intro ind qu; simp [processEdges]
  | cons e rest ih =>
    intro ind qu
    rcases h : getk ind e.target with _ | ko
    · have hstep : processEdges (e :: rest) ind qu
          = processEdges rest (setk ind e.target none) qu := by
        simp [processEdges, h]
      rw [hstep]
      refine le_trans (ih _ _) ?_
      have hset := posCount_setk ind e.target none
      rw [h] at hset
      simp only [cVal] at hset
      omega
    · rcases ko with _ | k
      · have hstep : processEdges (e :: rest) ind qu
            = processEdges rest (setk ind e.target none) qu := by
          simp [processEdges, h]
        rw [hstep]
        refine le_trans (ih _ _) ?_
        have hset := posCount_setk ind e.target none
        rw [h] at hset
        simp only [cVal] at hset
        omega
      · by_cases hk : k = 1
        · subst hk
          have hstep : processEdges (e :: rest) ind qu
              = processEdges rest (setk ind e.target (some 0)) (qu ++ [e.target]) := by
            norm_num [processEdges, h]
          rw [hstep]
          refine le_trans (ih _ _) ?_
          have hset := posCount_setk ind e.target (some 0)
          rw [h] at hset
          have c1 : cVal (some (some 1)) = 1 := by norm_num [cVal]
          have c0 : cVal (some (some 0)) = 0 := by norm_num [cVal]
          rw [c1, c0] at hset
          simp only [List.length_append, List.length_cons, List.length_nil]
          omega
        · have hknz : ¬ (k - 1 = 0) := by omega
          have hstep : processEdges (e :: rest) ind qu
              = processEdges rest (setk ind e.target (some (k - 1))) qu := by
            simp [processEdges, h, hknz]
          rw [hstep]
          refine le_trans (ih _ _) ?_
          have hset := posCount_setk ind e.target (some (k - 1))
          rw [h] at hset
          have hle : cVal (some (some (k - 1))) ≤ cVal (some (some k)) := by
            simp only [cVal]
            split_ifs with h1 h2 <;> omega
          omega

-- ## Helper lemmas: the placeholder scanner

theorem drop_takeWhile_length (p : Char → Bool) :
    ∀ l : List Char, l.drop (l.takeWhile p).length = l.dropWhile p := by
  intro l
  induction l with
  | nil => rfl
  | cons c rest ih =>
    by_cases hc : p c
    · simp [List.takeWhile_cons, List.dropWhile_cons, hc, ih]
    · simp [List.takeWhile_cons, List.dropWhile_cons, hc]

theorem parsePlaceholder_none_of_ne (c : Char) (rest : List Char) (h : c ≠ '$') :
    parsePlaceholder (c :: rest) = none := by
  cases rest with
  | nil => rfl
  | cons c2 rest2 => simp [parsePlaceholder, h]

theorem parsePlaceholder_some_inv (l : List Char) (ds m : List Char)
    (h : parsePlaceholder l = some (ds, m)) :
    l = '$' :: lbrace :: (ds ++ rbrace :: m) ∧ ds ≠ [] ∧ ∀ c ∈ ds, c.isDigit := by
  match l with
  | [] => exact absurd h (by simp [parsePlaceholder])
  | [c] => exact absurd h (by simp [parsePlaceholder])
  | c :: c2 :: rest2 =>
    rw [parsePlaceholder] at h
    by_cases hcc : c = '$' ∧ c2 = lbrace
    · rw [if_pos hcc] at h
      by_cases hemp : (rest2.takeWhile Char.isDigit).isEmpty
      · rw [if_pos hemp] at h; exact absurd h (by simp)
      · rw [if_neg hemp] at h
        rcases hdr : rest2.drop (rest2.takeWhile Char.isDigit).length with _ | ⟨c3, rest3⟩
        · rw [hdr] at h; exact absurd h (by simp)
        · rw [hdr] at h
          simp only [Option.ite_none_right_eq_some, Option.some.injEq, Prod.mk.injEq] at h
          obtain ⟨hc3, hds, hm⟩ := h
          obtain ⟨hc, hc2⟩ := hcc
          subst hc; subst hc2; subst hc3; subst hds; subst hm
          refine ⟨?_, ?_, ?_⟩
          · have hdw : rest2.dropWhile Char.isDigit = rbrace :: rest3 := by
              rw [← drop_takeWhile_length Char.isDigit rest2, hdr]
            have hsplit := List.takeWhile_append_dropWhile Char.isDigit rest2
            rw [hdw] at hsplit
            simp only [List.cons.injEq, true_and]
            exact hsplit.symm
          · intro hnil
            rw [hnil] at hemp
            simp at hemp
          · intro x hx
            exact List.mem_takeWhile_imp hx
    · rw [if_neg hcc] at h; exact absurd h (by simp)

theorem takeWhile_all_append_stop (p : Char → Bool) :
    ∀ (ds : List Char) (x : Char) (m : List Char), (∀ c ∈ ds, p c) → p x = false →
      (ds ++ x :: m).takeWhile p = ds := by
  intro ds
  induction ds with
  | nil => intro x m _ hx; simp [List.takeWhile_cons, hx]
  | cons d rest ih =>
    intro x m h hx
    have hd : p d := h d (by simp)
    simp [List.cons_append, List.takeWhile_cons, hd]
    exact ih x m (fun c hc => h c (by simp [hc])) hx

theorem parsePlaceholder_build (ds m : List Char) (hne : ds ≠ [])
    (hdig : ∀ c ∈ ds, c.isDigit) :
    parsePlaceholder ('$' :: lbrace :: (ds ++ rbrace :: m)) = some (ds, m) := by
  have hrb : rbrace.isDigit = false := by decide
  have htw : (ds ++ rbrace :: m).takeWhile Char.isDigit = ds :=
    takeWhile_all_append_stop Char.isDigit ds rbrace m hdig hrb
  have hne' : ((ds ++ rbrace :: m).takeWhile Char.isDigit).isEmpty = false := by
    rw [htw]
    cases ds with
    | nil => exact absurd rfl hne
    | cons d rest => rfl
  have hemp2 : ds.isEmpty = false := by
    cases ds with
    | nil => exact absurd rfl hne
    | cons d r => rfl
  rw [parsePlaceholder]
  rw [if_pos ⟨rfl, rfl⟩]
  simp only [htw, hemp2, List.drop_left]
  simp

theorem parsePlaceholder_some_length (l ds m : List Char)
    (h : parsePlaceholder l = some (ds, m)) :
    l.length = ds.length + m.length + 3 := by
  obtain ⟨hl, hne, _⟩ := parsePlaceholder_some_inv l ds m h
  subst hl
  simp
  omega

theorem riScan_nil (outs : List String) : ∀ f, riScan outs f [] = [] := by
  intro f; cases f <;> rfl

theorem riScan_fuel_eq (outs : List String) :
    ∀ (f1 : Nat) (f2 : Nat) (l : List Char), l.length ≤ f1 → l.length ≤ f2 →
      riScan outs f1 l = riScan outs f2 l := by
  intro f1
  induction f1 with
  | zero =>
    intro f2 l h1 _
    have : l = [] := List.length_eq_zero.mp (Nat.le_zero.mp h1)
    subst this
    rw [riScan_nil, riScan_nil]
  | succ a ih =>
    intro f2 l h1 h2
    cases l with
    | nil => rw [riScan_nil, riScan_nil]
    | cons c rest =>
      cases f2 with
      | zero => exact absurd h2 (by simp)
      | succ b =>
        simp only [riScan]
        rcases hp : parsePlaceholder (c :: rest) with _ | ⟨ds, m⟩
        · have hr : rest.length ≤ a := by
            simp at h1; omega
          have hr2 : rest.length ≤ b := by
            simp at h2; omega
          rw [ih b rest hr hr2]
        · have hlen := parsePlaceholder_some_length _ _ _ hp
          have hm1 : m.length ≤ a := by simp at h1 hlen ⊢; omega
          have hm2 : m.length ≤ b := by simp at h2 hlen ⊢; omega
          exact congrArg (fun x => (substOut outs ds).data ++ x) (ih b m hm1 hm2)

theorem riScan_eq_riRun (outs : List String) (f : Nat) (l : List Char)
    (h : l.length ≤ f) : riScan outs f l = riRun outs l :=
  riScan_fuel_eq outs f l.length l h le_rfl

theorem riRun_nil (outs : List String) : riRun outs [] = [] := rfl

theorem riRun_cons_none (outs : List String) (c : Char) (rest : List Char)
    (h : parsePlaceholder (c :: rest) = none) :
    riRun outs (c :: rest) = c :: riRun outs rest := by
  show riScan outs (rest.length + 1) (c :: rest) = _
  simp only [riScan, h]
  rfl

theorem riRun_cons_some (outs : List String) (c : Char) (rest ds m : List Char)
    (h : parsePlaceholder (c :: rest) = some (ds, m)) :
    riRun outs (c :: rest) = (substOut outs ds).data ++ riRun outs m := by
  have hlen := parsePlaceholder_some_length _ _ _ h
  show riScan outs (rest.length + 1) (c :: rest) = _
  simp only [riScan, h]
  rw [riScan_eq_riRun]
  simp at hlen
  omega

theorem riRun_append_nodollar (outs : List String) :
    ∀ (l m : List Char), (∀ c ∈ l, c ≠ '$') →
      riRun outs (l ++ m) = l ++ riRun outs m := by
  intro l
  induction l with
  | nil => intro m _; simp
  | cons c rest ih =>
    intro m h
    have hc : c ≠ '$' := h c (by simp)
    rw [List.cons_append, riRun_cons_none outs c (rest ++ m)
      (parsePlaceholder_none_of_ne c _ hc)]
    rw [ih m (fun x hx => h x (by simp [hx]))]
    rfl

theorem riRun_match (outs : List String) (ds m : List Char) (hne : ds ≠ [])
    (hdig : ∀ c ∈ ds, c.isDigit) :
    riRun outs ('$' :: lbrace :: (ds ++ rbrace :: m))
      = (substOut outs ds).data ++ riRun outs m :=
  riRun_cons_some outs '$' _ ds m (parsePlaceholder_build ds m hne hdig)

theorem replaceIndexedInputs_eq_riRun (t : String) (outs : List String) :
    replaceIndexedInputs t outs = String.mk (riRun outs t.data) := rfl

-- ## Helper lemmas: strings

theorem stringExt (s t : String) (h : s.data = t.data) : s = t := by
  cases s; cases t; exact congrArg String.mk h

-- ## Claim C8

/-- C8: `replaceIndexedInputs` substitutes each `${n}` placeholder by the
n-th (1-based) parent output when `1 ≤ n ≤ length`, and by the empty string
when `n = 0` or `n` exceeds the list length; in particular
`replaceIndexedInputs "Hello ${1} and ${2}" ["A","B"] = "Hello A and B"` and
`replaceIndexedInputs "${5}" ["A"] = ""`. -/
theorem c8_replaceIndexedInputs (a d b : String) (outs : List String) (n : Nat)
    (ha : ∀ c ∈ a.data, c ≠ '$')
    (hd : d.data ≠ [])
    (hdig : ∀ c ∈ d.data, c.isDigit)
    (hn : digitsVal d.data = n) :
    (replaceIndexedInputs (a ++ "$" ++ String.mk [lbrace] ++ d ++ String.mk [rbrace] ++ b) outs
      = a ++ (if 1 ≤ n ∧ n - 1 < outs.length then outs.getD (n - 1) "" else "")
          ++ replaceIndexedInputs b outs)
    ∧ replaceIndexedInputs "Hello $\x7b1\x7d and $\x7b2\x7d" ["A", "B"] = "Hello A and B"
    ∧ replaceIndexedInputs "$\x7b5\x7d" ["A"] = "" := by
  refine ⟨?_, by decide, by decide⟩
  apply stringExt
  rw [replaceIndexedInputs_eq_riRun, replaceIndexedInputs_eq_riRun]
  have hX : (a ++ "$" ++ String.mk [lbrace] ++ d ++ String.mk [rbrace] ++ b).data
      = a.data ++ ('$' :: lbrace :: (d.data ++ rbrace :: b.data)) := by
    simp [String.data_append]
  rw [hX, riRun_append_nodollar outs a.data _ ha, riRun_match outs d.data b.data hd hdig]
  have hsub : substOut outs d.data
      = (if 1 ≤ n ∧ n - 1 < outs.length then outs.getD (n - 1) "" else "") := by
    simp only [substOut, hn]
  rw [hsub]
  simp [String.data_append]

/-- Witness for C8 at concrete inputs. -/
theorem c8_replaceIndexedInputs_witness :
    (∀ c ∈ ("x " : String).data, c ≠ '$') ∧ ("2" : String).data ≠ [] ∧
    (∀ c ∈ ("2" : String).data, c.isDigit) ∧ digitsVal ("2" : String).data = 2 ∧
    replaceIndexedInputs ("x " ++ "$" ++ String.mk [lbrace] ++ "2" ++ String.mk [rbrace] ++ " y")
        ["A", "B"]
      = "x " ++ (if 1 ≤ 2 ∧ 2 - 1 < (["A", "B"] : List String).length
            then (["A", "B"] : List String).getD (2 - 1) "" else "")
          ++ replaceIndexedInputs " y" ["A", "B"] :=
  ⟨by decide, by decide, by decide, by decide,
    (c8_replaceIndexedInputs "x " "2" " y" ["A", "B"] 2 (by decide) (by decide)
      (by decide) (by decide)).1⟩

-- ## Helper lemmas: event traces

theorem failCount_append (a b : List Msg) :
    failCount (a ++ b) = failCount a + failCount b := by
  simp [failCount, List.filter_append]

theorem hasStatusFor_append (a b : List Msg) (i : String) :
    hasStatusFor (a ++ b) i = (hasStatusFor a i || hasStatusFor b i) := by
  simp [hasStatusFor, List.any_append]

theorem executeCLINode_events_shape (o : Oracles) (node : Node) :
    (executeCLINode o node).events = [] ∨
    ∃ c, (executeCLINode o node).events
      = [Msg.nodeStatus node.id NodeStatus.pendingApproval (some c)] := by
  rw [executeCLINode]
  by_cases h1 : ¬ (o.shellAvailable ∧ o.isTrusted)
  · rw [if_pos h1]; left; rfl
  · rw [if_neg h1]
    by_cases h2 : jsTrim node.data.content = ""
    · rw [if_pos h2]; left; rfl
    · rw [if_neg h2]
      by_cases h3 : node.data.needsUserApproval = some true
      · simp only [h3, if_pos rfl]
        by_cases h4 : commandsNotAllowed.any (fun cmd =>
            jsStartsWith (convertQuotes (tildeExpand o.homeDir o.pathSep node.data.content)) cmd)
        · simp only [h4, if_true]
          right
          exact ⟨_, rfl⟩
        · simp only [h4]
          rcases o.shellExec _ with r | m <;> right <;> exact ⟨_, rfl⟩
      · simp only [if_neg h3]
        by_cases h4 : commandsNotAllowed.any (fun cmd =>
            jsStartsWith (convertQuotes (tildeExpand o.homeDir o.pathSep node.data.content)) cmd)
        · left; simp [h4]
        · simp only [h4]
          rcases o.shellExec _ with r | m <;> left <;> rfl

theorem executeCLINode_events_failCount (o : Oracles) (node : Node) :
    failCount (executeCLINode o node).events = 0 := by
  rcases executeCLINode_events_shape o node with h | ⟨c, h⟩ <;>
    simp [h, failCount, NodeStatus.isFailure]

theorem executeCLINode_events_hasStatus (o : Oracles) (node : Node) (i : String)
    (h : i ≠ node.id) : hasStatusFor (executeCLINode o node).events i = false := by
  rcases executeCLINode_events_shape o node with hs | ⟨c, hs⟩ <;>
    simp [hs, hasStatusFor, Ne.symm h]

-- ## Claim C1

/-- C1: the claim states that for a CLI node with `needsUserApproval` whose
approval callback returns a replacement command, the denylist check is
performed against that replacement, so a replacement beginning with a
denylisted entry such as `sudo` is rejected before the shell runs.  The code
instead checks the pre-approval `convertQuotes` string: at this input the
replacement `sudo rm -rf /tmp/x` begins with the denylisted `sudo`, yet
`executeCLINode` hands it to the shell and returns its output. -/
theorem c1_denylist_skips_replacement :
    jsStartsWith "sudo rm -rf /tmp/x" "sudo" = true
    ∧ "sudo" ∈ commandsNotAllowed
    ∧ oApprove.approval "c" = some "sudo rm -rf /tmp/x"
    ∧ executeCLINode oApprove ⟨"c", .cli, ⟨"t", "echo hi", none, some true⟩⟩
      = ⟨[.nodeStatus "c" .pendingApproval (some "echo hi")], false, .ok "done"⟩ :=
  ⟨by decide, by decide, by decide, by decide⟩

-- ## Claim C2

/-- C2: in any run state, a CLI node whose executor throws produces exactly
the failure suffix: a `running` status, the executor's own messages, one
failure status (`interrupted` when the message contains `aborted`, else
`error`), and `execution_completed`; the shell is disposed, the orchestrator
returns normally, and no node other than the failing one gains a status
event — in particular no node after it in the sorted list executes. -/
theorem c2_cli_failure_halts_run (o : Oracles) (idx : IndexedEdges) (skip : List String)
    (rest : List Node) (outs : List (String × String)) (evs : List Msg) (disp : Bool)
    (node : Node) (m : String)
    (hty : node.type = .cli) (hsk : node.id ∉ skip)
    (herr : (executeCLINode o (renderedCLINode idx outs node)).out = .error m)
    (hfc : failCount evs = 0) :
    (runNodes o idx skip (node :: rest) outs evs disp).events
        = evs ++ [.nodeStatus node.id .running none]
          ++ (executeCLINode o (renderedCLINode idx outs node)).events
          ++ [.nodeStatus node.id
                (if jsIncludes m "aborted" then .interrupted else .error) (some m),
              .executionCompleted]
    ∧ (runNodes o idx skip (node :: rest) outs evs disp).disposed = true
    ∧ (runNodes o idx skip (node :: rest) outs evs disp).outcome = .completed
    ∧ failCount (runNodes o idx skip (node :: rest) outs evs disp).events = 1
    ∧ (runNodes o idx skip (node :: rest) outs evs disp).events.getLast?
        = some .executionCompleted
    ∧ (∀ i, hasStatusFor evs i = false → i ≠ node.id →
        hasStatusFor (runNodes o idx skip (node :: rest) outs evs disp).events i = false) := by
  obtain ⟨nid, nty, nd⟩ := node
  simp only at hty
  subst hty
  have hrun : runNodes o idx skip (⟨nid, .cli, nd⟩ :: rest) outs evs disp
      = ⟨evs ++ [.nodeStatus nid .running none]
          ++ (executeCLINode o (renderedCLINode idx outs ⟨nid, .cli, nd⟩)).events
          ++ [.nodeStatus nid
                (if jsIncludes m "aborted" then .interrupted else .error) (some m),
              .executionCompleted],
          true, .completed, outs⟩ := by
    rw [runNodes]
    rw [if_neg hsk]
    simp only []
    rw [herr]
  refine ⟨by rw [hrun], by rw [hrun], by rw [hrun], ?_, ?_, ?_⟩
  · rw [hrun]
    have h1 : failCount [Msg.nodeStatus nid NodeStatus.running none] = 0 := by
      simp [failCount, NodeStatus.isFailure]
    have h2 : failCount [Msg.nodeStatus nid
        (if jsIncludes m "aborted" then NodeStatus.interrupted else NodeStatus.error)
        (some m), Msg.executionCompleted] = 1 := by
      by_cases hj : jsIncludes m "aborted" = true <;>
        simp [failCount, NodeStatus.isFailure, hj]
    show failCount (evs ++ [Msg.nodeStatus nid NodeStatus.running none]
        ++ (executeCLINode o (renderedCLINode idx outs ⟨nid, NodeType.cli, nd⟩)).events
        ++ [Msg.nodeStatus nid
              (if jsIncludes m "aborted" then NodeStatus.interrupted else NodeStatus.error)
              (some m), Msg.executionCompleted]) = 1
    rw [failCount_append, failCount_append, failCount_append, hfc, h1, h2,
      executeCLINode_events_failCount]
  · rw [hrun]
    have hsplit : evs ++ [Msg.nodeStatus nid NodeStatus.running none]
          ++ (executeCLINode o
              (renderedCLINode idx outs ⟨nid, NodeType.cli, nd⟩)).events
          ++ [Msg.nodeStatus nid
                (if jsIncludes m "aborted" then NodeStatus.interrupted else NodeStatus.error)
                (some m),
              Msg.executionCompleted]
        = (evs ++ [Msg.nodeStatus nid NodeStatus.running none]
          ++ (executeCLINode o
              (renderedCLINode idx outs ⟨nid, NodeType.cli, nd⟩)).events
          ++ [Msg.nodeStatus nid
                (if jsIncludes m "aborted" then NodeStatus.interrupted else NodeStatus.error)
                (some m)]) ++ [Msg.executionCompleted] := by
      simp
    rw [hsplit, List.getLast?_concat]
  · intro i hi hne
    rw [hrun]
    have hcli : hasStatusFor (executeCLINode o
        (renderedCLINode idx outs ⟨nid, NodeType.cli, nd⟩)).events i = false :=
      executeCLINode_events_hasStatus o (renderedCLINode idx outs ⟨nid, NodeType.cli, nd⟩)
        i (by exact hne)
    simp only [hasStatusFor_append, hi, hcli, Bool.false_or]
    simp [hasStatusFor, Ne.symm hne]

/-- Witness for C2: a concrete run state in which the CLI node's rendered
command hits the denylist. -/
theorem c2_cli_failure_halts_run_witness :
    (executeCLINode oBase (renderedCLINode (createEdgeIndex []) [] (cliNode "c" "sudo ls"))).out
        = .error "Cody cannot execute this command"
    ∧ failCount [Msg.executionStarted] = 0
    ∧ (runNodes oBase (createEdgeIndex []) [] [cliNode "c" "sudo ls"] [] [.executionStarted]
        false).events
      = [Msg.executionStarted] ++ [.nodeStatus "c" .running none]
          ++ (executeCLINode oBase (renderedCLINode (createEdgeIndex []) []
                (cliNode "c" "sudo ls"))).events
          ++ [.nodeStatus "c"
                (if jsIncludes "Cody cannot execute this command" "aborted"
                  then .interrupted else .error)
                (some "Cody cannot execute this command"),
              .executionCompleted]
    ∧ failCount (runNodes oBase (createEdgeIndex []) [] [cliNode "c" "sudo ls"] []
        [.executionStarted] false).events = 1 := by
  have h := c2_cli_failure_halts_run oBase (createEdgeIndex []) [] [] [] [.executionStarted]
    false (cliNode "c" "sudo ls") "Cody cannot execute this command" rfl (by decide)
    (by decide) (by decide)
  exact ⟨by decide, by decide, h.1, h.2.2.2.1⟩

-- ## Claim C5 (counterexample and amended statement)

/-- C5 counterexample: the claim says an LLM node whose stream errors lets
the run continue to later nodes.  In this concrete two-node run the LLM
stream errors, `executeWorkflow` rejects with the wrapped error, the later
node `z` receives no status event, and no `execution_completed` is posted:
the run does not continue. -/
theorem c5_counterexample :
    (executeWorkflow oBase [llmNode "l" "ask", inputNode "z" "x"] []).outcome
        = .threw "Failed to execute LLM node: boom"
    ∧ hasStatusFor (executeWorkflow oBase [llmNode "l" "ask", inputNode "z" "x"] []).events "z"
        = false
    ∧ Msg.executionCompleted
        ∉ (executeWorkflow oBase [llmNode "l" "ask", inputNode "z" "x"] []).events := by
  refine ⟨by decide, by decide, by decide⟩

/-- C5 amended: an LLM node whose executor fails makes `executeWorkflow`
throw the wrapped error: the trace ends at the failing node's `running`
status, the shell is not disposed by this path, no `execution_completed` is
posted, and no later node gains a status event — unlike CLI failures, which
post a failure status and `execution_completed` before terminating. -/
theorem c5_llm_failure_propagates (o : Oracles) (idx : IndexedEdges) (skip : List String)
    (rest : List Node) (outs : List (String × String)) (evs : List Msg) (disp : Bool)
    (node : Node) (m : String)
    (hty : node.type = .llm) (hsk : node.id ∉ skip)
    (herr : executeLLMNode o (renderedLLMNode idx outs node) = .error m)
    (hnc : Msg.executionCompleted ∉ evs) :
    (runNodes o idx skip (node :: rest) outs evs disp).events
        = evs ++ [.nodeStatus node.id .running none]
    ∧ (runNodes o idx skip (node :: rest) outs evs disp).outcome = .threw m
    ∧ (runNodes o idx skip (node :: rest) outs evs disp).disposed = disp
    ∧ Msg.executionCompleted ∉ (runNodes o idx skip (node :: rest) outs evs disp).events
    ∧ (∀ i, hasStatusFor evs i = false → i ≠ node.id →
        hasStatusFor (runNodes o idx skip (node :: rest) outs evs disp).events i = false) := by
  obtain ⟨nid, nty, nd⟩ := node
  simp only at hty
  subst hty
  have hrun : runNodes o idx skip (⟨nid, .llm, nd⟩ :: rest) outs evs disp
      = ⟨evs ++ [.nodeStatus nid .running none], disp, .threw m, outs⟩ := by
    rw [runNodes]
    rw [if_neg hsk]
    simp only []
    rw [herr]
  refine ⟨by rw [hrun], by rw [hrun], by rw [hrun], ?_, ?_⟩
  · rw [hrun]
    simp [hnc]
  · intro i hi hne
    rw [hrun]
    simp only [hasStatusFor_append, hi, Bool.false_or]
    simp [hasStatusFor, Ne.symm hne]

/-- Witness for the amended C5. -/
theorem c5_llm_failure_propagates_witness :
    executeLLMNode oBase (renderedLLMNode (createEdgeIndex []) [] (llmNode "l" "ask"))
        = .error "Failed to execute LLM node: boom"
    ∧ (runNodes oBase (createEdgeIndex []) [] [llmNode "l" "ask", inputNode "z" "x"] []
        [.executionStarted] false).outcome = .threw "Failed to execute LLM node: boom"
    ∧ hasStatusFor (runNodes oBase (createEdgeIndex []) []
        [llmNode "l" "ask", inputNode "z" "x"] [] [.executionStarted] false).events "z"
      = false := by
  have h := c5_llm_failure_propagates oBase (createEdgeIndex []) []
    [inputNode "z" "x"] [] [.executionStarted] false (llmNode "l" "ask")
    "Failed to execute LLM node: boom" rfl (by decide) (by decide) (by decide)
  exact ⟨by decide, h.2.1, h.2.2.2.2 "z" (by decide) (by decide)⟩

-- ## Claim C10

/-- C10: a node whose type is none of the five known kinds makes the
orchestrator dispose the shell and throw `Unknown node type: ...`; it gains
no `completed` status, no `execution_completed` is posted, and no other node
gains a status event afterwards. -/
theorem c10_unknown_node_type (o : Oracles) (idx : IndexedEdges) (skip : List String)
    (rest : List Node) (outs : List (String × String)) (evs : List Msg) (disp : Bool)
    (node : Node) (ty : String)
    (hty : node.type = .other ty) (hsk : node.id ∉ skip)
    (hnc : Msg.executionCompleted ∉ evs)
    (hcm : ∀ r, Msg.nodeStatus node.id .completed r ∉ evs) :
    (runNodes o idx skip (node :: rest) outs evs disp).events
        = evs ++ [.nodeStatus node.id .running none]
    ∧ (runNodes o idx skip (node :: rest) outs evs disp).disposed = true
    ∧ (runNodes o idx skip (node :: rest) outs evs disp).outcome
        = .threw ("Unknown node type: " ++ ty)
    ∧ Msg.executionCompleted ∉ (runNodes o idx skip (node :: rest) outs evs disp).events
    ∧ (∀ r, Msg.nodeStatus node.id .completed r
        ∉ (runNodes o idx skip (node :: rest) outs evs disp).events)
    ∧ (∀ i, hasStatusFor evs i = false → i ≠ node.id →
        hasStatusFor (runNodes o idx skip (node :: rest) outs evs disp).events i = false) := by
  obtain ⟨nid, nty, nd⟩ := node
  simp only at hty
  subst hty
  have hrun : runNodes o idx skip (⟨nid, .other ty, nd⟩ :: rest) outs evs disp
      = ⟨evs ++ [.nodeStatus nid .running none], true,
          .threw ("Unknown node type: " ++ ty), outs⟩ := by
    rw [runNodes]
    rw [if_neg hsk]
  refine ⟨by rw [hrun], by rw [hrun], by rw [hrun], ?_, ?_, ?_⟩
  · rw [hrun]
    simp [hnc]
  · intro r
    rw [hrun]
    simp [hcm r]
  · intro i hi hne
    rw [hrun]
    simp only [hasStatusFor_append, hi, Bool.false_or]
    simp [hasStatusFor, Ne.symm hne]

/-- Witness for C10. -/
theorem c10_unknown_node_type_witness :
    (runNodes oBase (createEdgeIndex []) [] [⟨"u", .other "mystery", ⟨"t", "", none, none⟩⟩]
        [] [.executionStarted] false).outcome = .threw ("Unknown node type: " ++ "mystery")
    ∧ (runNodes oBase (createEdgeIndex []) [] [⟨"u", .other "mystery", ⟨"t", "", none, none⟩⟩]
        [] [.executionStarted] false).disposed = true
    ∧ Msg.executionCompleted ∉ (runNodes oBase (createEdgeIndex []) []
        [⟨"u", .other "mystery", ⟨"t", "", none, none⟩⟩] [] [.executionStarted] false).events := by
  have h := c10_unknown_node_type oBase (createEdgeIndex []) [] []
    [] [.executionStarted] false ⟨"u", .other "mystery", ⟨"t", "", none, none⟩⟩ "mystery"
    rfl (by decide) (by decide) (by intro r; simp)
  exact ⟨h.2.2.1, h.2.1, h.2.2.2.1⟩

-- ## Helper lemmas: LLM stream processing

theorem join_append_single_length (acc : List String) (t : String) :
    (String.join (acc ++ [t])).length = (String.join acc).length + t.length := by
  have hj : String.join (acc ++ [t]) = String.join acc ++ t := by
    simp [String.join, List.foldl_append]
  rw [hj]
  show (String.join acc ++ t).data.length = _
  rw [String.data_append, List.length_append]
  rfl

theorem maxChunkLen_cons_change (t : String) (rest : List StreamMsg) :
    maxChunkLen (.change t :: rest) = max t.length (maxChunkLen rest) := rfl

theorem sumChangeLens_cons_change (t : String) (rest : List StreamMsg) :
    sumChangeLens (.change t :: rest) = t.length + sumChangeLens rest := rfl

theorem sumChangeLens_nil : sumChangeLens [] = 0 := rfl

theorem processStream_resolved_le (msgs : List StreamMsg) :
    ∀ (acc : List String) (s : String), processStream acc msgs = .resolved s →
      s.length ≤ max (String.join acc).length (1000000 + maxChunkLen msgs) := by
  induction msgs with
  | nil => intro acc s h; exact absurd h (by simp [processStream])
  | cons msg rest ih =>
    intro acc s h
    cases msg with
    | change t =>
      rw [processStream] at h
      by_cases hg : (String.join acc).length > 1000000
      · rw [if_pos hg] at h; exact absurd h (by simp)
      · rw [if_neg hg] at h
        have hb := ih (acc ++ [t]) s h
        have hlen := join_append_single_length acc t
        rw [maxChunkLen_cons_change]
        omega
    | complete =>
      rw [processStream] at h
      have hs : s = String.join acc := by
        have := h
        simp at this
        exact this.symm
      rw [hs]
      exact le_max_left _ _
    | streamError n m =>
      rw [processStream] at h
      exact absurd h (by simp)

theorem processStream_overflow :
    ∀ (pre : List StreamMsg) (acc : List String) (t : String) (rest : List StreamMsg),
      (∀ x ∈ pre, x.isChange) →
      1000000 < (String.join acc).length + sumChangeLens pre →
      processStream acc (pre ++ .change t :: rest)
        = .rejected "Error" "Response too large" := by
  intro pre
  induction pre with
  | nil =>
    intro acc t rest _ hover
    rw [List.nil_append, processStream]
    rw [if_pos (by simpa [sumChangeLens] using hover)]
  | cons msg pre' ih =>
    intro acc t rest hch hover
    have hmsg : msg.isChange := hch msg (by simp)
    cases msg with
    | change u =>
      rw [List.cons_append, processStream]
      by_cases hg : (String.join acc).length > 1000000
      · rw [if_pos hg]
      · rw [if_neg hg]
        apply ih (acc ++ [u]) t rest (fun x hx => hch x (by simp [hx]))
        have hlen := join_append_single_length acc u
        rw [sumChangeLens_cons_change] at hover
        omega
    | complete => exact absurd hmsg (by simp [StreamMsg.isChange])
    | streamError n m => exact absurd hmsg (by simp [StreamMsg.isChange])

-- ## Claim C6 (counterexample and amended statement)

/-- C6 counterexample: the claim says any streamed response accumulating
more than 1,000,000 characters fails with `Response too large`.  The size
check runs before appending each chunk, so a single chunk of 1,000,001
characters followed by `complete` resolves successfully with an output
exceeding the ceiling. -/
theorem c6_counterexample :
    executeLLMNode oBigChunk (llmNode "l" "p") = .ok bigChunk
    ∧ 1000000 < bigChunk.length := by
  constructor
  · rfl
  · have hb : bigChunk.length = 1000001 := by
      show (List.replicate 1000001 'a').length = 1000001
      exact List.length_replicate 1000001 'a'
    omega

/-- C6 amended: the size guard fires when a `change` message arrives after
more than 1,000,000 characters are already accumulated — the node then fails
with `Failed to execute LLM node: Response too large` without consuming the
rest of the stream; consequently a resolved output can exceed the
1,000,000-character ceiling by at most the length of its largest chunk. -/
theorem c6_size_ceiling (o : Oracles) (node : Node) (hc : ¬ node.data.content = "") :
    (∀ s, executeLLMNode o node = .ok s →
      s.length ≤ 1000000 + maxChunkLen (o.llmStream node.data.content))
    ∧ (∀ pre t rest, o.llmStream node.data.content = pre ++ .change t :: rest →
        (∀ x ∈ pre, x.isChange) → 1000000 < sumChangeLens pre →
        executeLLMNode o node = .error "Failed to execute LLM node: Response too large") := by
  constructor
  · intro s h
    rw [executeLLMNode, if_neg hc] at h
    rcases hps : processStream [] (o.llmStream node.data.content) with s' | ⟨n, m⟩ | _
    · rw [hps] at h
      have hs : s' = s := by
        have := h
        simp at this
        exact this
      subst hs
      have hres := processStream_resolved_le (o.llmStream node.data.content) [] s' hps
      have hj : (String.join ([] : List String)).length = 0 := rfl
      rw [hj] at hres
      simpa [Nat.zero_max] using hres
    · rw [hps] at h
      by_cases hn : n = "AbortError" <;> simp [hn] at h
    · rw [hps] at h
      simp at h
  · intro pre t rest hstream hch hover
    rw [executeLLMNode, if_neg hc, hstream]
    rw [processStream_overflow pre [] t rest hch
      (by have hj : (String.join ([] : List String)).length = 0 := rfl; omega)]
    simp

/-- Witness for the amended C6: a stream whose first chunk already exceeds
the ceiling makes the next `change` message fail the node. -/
theorem c6_size_ceiling_witness :
    ¬ (llmNode "l" "p").data.content = ""
    ∧ ((fun _ => [StreamMsg.change bigChunk, StreamMsg.change "x", StreamMsg.complete]) :
        String → List StreamMsg) (llmNode "l" "p").data.content
      = [StreamMsg.change bigChunk] ++ StreamMsg.change "x" :: [StreamMsg.complete]
    ∧ 1000000 < sumChangeLens [StreamMsg.change bigChunk]
    ∧ executeLLMNode
        { oBase with llmStream := fun _ => [.change bigChunk, .change "x", .complete] }
        (llmNode "l" "p")
      = .error "Failed to execute LLM node: Response too large" := by
  have hb : bigChunk.length = 1000001 := by
    show (List.replicate 1000001 'a').length = 1000001
    exact List.length_replicate 1000001 'a'
  have hsum : 1000000 < sumChangeLens [StreamMsg.change bigChunk] := by
    rw [sumChangeLens_cons_change, sumChangeLens_nil]
    omega
  refine ⟨by decide, rfl, hsum, ?_⟩
  exact (c6_size_ceiling
      { oBase with llmStream := fun _ => [.change bigChunk, .change "x", .complete] }
      (llmNode "l" "p") (by decide)).2
    [StreamMsg.change bigChunk] "x" [StreamMsg.complete] rfl
    (by intro x hx; simp at hx; rw [hx]; rfl) hsum

-- ## Helper lemmas: lookup under permutation

theorem getk_some_iff_mem {α : Type} (l : List (String × α)) (k : String) (v : α)
    (hnd : (l.map Prod.fst).Nodup) :
    getk l k = some v ↔ (k, v) ∈ l := by
  induction l with
  | nil => simp [getk_nil]
  | cons p rest ih =>
    obtain ⟨a, b⟩ := p
    rw [getk_cons]
    simp only [List.map_cons, List.nodup_cons] at hnd
    by_cases h : k = a
    · subst h
      rw [if_pos rfl]
      constructor
      · intro hv
        have hbv : b = v := by simpa using hv
        subst hbv
        exact List.mem_cons_self _ _
      · intro hmem
        rcases List.mem_cons.mp hmem with heq | hmem2
        · have hv : v = b := congrArg Prod.snd heq
          simp [hv]
        · exact absurd (List.mem_map_of_mem Prod.fst hmem2) hnd.1
    · rw [if_neg h, ih hnd.2]
      simp [h]

theorem getk_none_iff_not_mem {α : Type} (l : List (String × α)) (k : String) :
    getk l k = none ↔ k ∉ l.map Prod.fst := by
  induction l with
  | nil => simp [getk_nil]
  | cons p rest ih =>
    obtain ⟨a, b⟩ := p
    rw [getk_cons]
    by_cases h : k = a
    · subst h; simp
    · rw [if_neg h, ih]
      simp [h]

theorem getk_eq_of_perm {α : Type} (l1 l2 : List (String × α))
    (hperm : l1.Perm l2) (hnd : (l1.map Prod.fst).Nodup) (k : String) :
    getk l1 k = getk l2 k := by
  have hnd2 : (l2.map Prod.fst).Nodup := (hperm.map Prod.fst).nodup_iff.mp hnd
  rcases h1 : getk l1 k with _ | v
  · rw [getk_none_iff_not_mem] at h1
    have : k ∉ l2.map Prod.fst := fun hmem => h1 ((hperm.map Prod.fst).mem_iff.mpr hmem)
    exact ((getk_none_iff_not_mem l2 k).mpr this).symm
  · rw [getk_some_iff_mem l1 k v hnd] at h1
    exact ((getk_some_iff_mem l2 k v hnd2).mpr (hperm.mem_iff.mp h1)).symm

-- ## Claim C7

/-- C7: `combineParentOutputsByConnectionOrder` returns one entry per
incoming edge of the node in edge-list order; each entry is the recorded
output of the edge's source with CRLF normalized and whitespace trimmed, or
the empty string when no output is recorded — it never fails, and the result
is independent of the insertion order of the output map.  In particular, for
edges `[e1: a→n, e2: b→n]` and outputs `{a: "X\r\n", b: "Y"}` it returns
`["X", "Y"]` in that order for either insertion order of the map. -/
theorem c7_combineParentOutputs (nodeId : String) (edges : List Edge)
    (out1 out2 : List (String × String))
    (hnd : (out1.map Prod.fst).Nodup) (hperm : out1.Perm out2) :
    (combineParentOutputs nodeId (createEdgeIndex edges) out1
      = (edges.filter (fun e => decide (e.target = nodeId))).map
          (fun e => match getk out1 e.source with
            | none => ""
            | some output => normOutput output))
    ∧ combineParentOutputs nodeId (createEdgeIndex edges) out2
        = combineParentOutputs nodeId (createEdgeIndex edges) out1
    ∧ combineParentOutputs "n" (createEdgeIndex [⟨"e1", "a", "n"⟩, ⟨"e2", "b", "n"⟩])
        [("a", "X\r\n"), ("b", "Y")] = ["X", "Y"]
    ∧ combineParentOutputs "n" (createEdgeIndex [⟨"e1", "a", "n"⟩, ⟨"e2", "b", "n"⟩])
        [("b", "Y"), ("a", "X\r\n")] = ["X", "Y"] := by
  refine ⟨?_, ?_, by decide, by decide⟩
  · rw [combineParentOutputs, getEdges_byTarget]
  · rw [combineParentOutputs, combineParentOutputs]
    apply List.map_congr_left
    intro e _
    rw [getk_eq_of_perm out1 out2 hperm hnd]

/-- Witness for C7 at the spec's concrete example. -/
theorem c7_combineParentOutputs_witness :
    ((([("a", "X\r\n"), ("b", "Y")] : List (String × String)).map Prod.fst).Nodup)
    ∧ (([("a", "X\r\n"), ("b", "Y")] : List (String × String)).Perm
        [("b", "Y"), ("a", "X\r\n")])
    ∧ combineParentOutputs "n" (createEdgeIndex [⟨"e1", "a", "n"⟩, ⟨"e2", "b", "n"⟩])
        [("b", "Y"), ("a", "X\r\n")]
      = combineParentOutputs "n" (createEdgeIndex [⟨"e1", "a", "n"⟩, ⟨"e2", "b", "n"⟩])
        [("a", "X\r\n"), ("b", "Y")] := by
  refine ⟨by decide, ?_, ?_⟩
  · exact List.Perm.swap _ _ []
  · exact (c7_combineParentOutputs "n" [⟨"e1", "a", "n"⟩, ⟨"e2", "b", "n"⟩]
      [("a", "X\r\n"), ("b", "Y")] [("b", "Y"), ("a", "X\r\n")]
      (by decide) (List.Perm.swap _ _ [])).2.1

-- ## Helper lemmas: the inactive-node closure

theorem filter_length_mono_of_imp {α : Type} (p q : α → Bool) :
    ∀ l : List α, (∀ x ∈ l, q x → p x) →
      (l.filter q).length ≤ (l.filter p).length := by
  intro l
  induction l with
  | nil => simp
  | cons a rest ih =>
    intro h
    rw [List.filter_cons, List.filter_cons]
    by_cases hqa : q a
    · rw [if_pos hqa, if_pos (h a (by simp) hqa)]
      simpa using ih (fun x hx => h x (by simp [hx]))
    · rw [if_neg (by simpa using hqa)]
      by_cases hpa : p a
      · rw [if_pos hpa]
        have := ih (fun x hx => h x (by simp [hx]))
        simp only [List.length_cons]
        omega
      · rw [if_neg (by simpa using hpa)]
        exact ih (fun x hx => h x (by simp [hx]))

theorem filter_length_strict {α : Type} (p q : α → Bool) :
    ∀ l : List α, (∀ x ∈ l, q x → p x) → (∃ x ∈ l, p x ∧ ¬ q x) →
      (l.filter q).length < (l.filter p).length := by
  intro l
  induction l with
  | nil => rintro _ ⟨x, hx, _⟩; simp at hx
  | cons a rest ih =>
    rintro himp ⟨x, hx, hpx, hqx⟩
    have hsub : (rest.filter q).length ≤ (rest.filter p).length :=
      filter_length_mono_of_imp p q rest (fun y hy hqy => himp y (by simp [hy]) hqy)
    rcases List.mem_cons.mp hx with hxa | hxr
    · subst hxa
      rw [List.filter_cons, List.filter_cons]
      rw [if_pos hpx]
      rw [if_neg (by simpa using hqx)]
      simp only [List.length_cons]
      omega
    · have hrec := ih (fun y hy => himp y (by simp [hy])) ⟨x, hxr, hpx, hqx⟩
      rw [List.filter_cons, List.filter_cons]
      by_cases hqa : q a
      · rw [if_pos (himp a (by simp) hqa), if_pos hqa]
        simpa using hrec
      · rw [if_neg (by simpa using hqa)]
        by_cases hpa : p a
        · rw [if_pos hpa]
          simp only [List.length_cons]
          omega
        · rw [if_neg (by simpa using hpa)]
          exact hrec

theorem mem_newSuccs (edges : List Edge) (s : List String) (x : String) :
    x ∈ newSuccs edges s ↔ x ∉ s ∧ ∃ e ∈ edges, e.source ∈ s ∧ e.target = x := by
  simp only [newSuccs, List.mem_filter, List.mem_dedup, List.mem_map,
    decide_eq_true_eq]
  constructor
  · rintro ⟨⟨e, he, hx⟩, hns⟩
    exact ⟨hns, e, he.1, he.2.1, hx⟩
  · rintro ⟨hns, e, he, hsrc, hx⟩
    exact ⟨⟨e, ⟨he, hsrc, fun ht => hns (hx ▸ ht)⟩, hx⟩, hns⟩

theorem potential_decrease (edges : List Edge) (s : List String)
    (h : newSuccs edges s ≠ []) :
    potential edges (s ++ newSuccs edges s) < potential edges s := by
  rcases List.exists_mem_of_ne_nil _ h with ⟨x, hx⟩
  have hx' := (mem_newSuccs edges s x).mp hx
  apply filter_length_strict
  · intro t _ hq
    have := of_decide_eq_true hq
    exact decide_eq_true (fun hts => this (by simp [hts]))
  · refine ⟨x, ?_, decide_eq_true hx'.1, ?_⟩
    · rw [List.mem_dedup]
      obtain ⟨_, e, he, _, htx⟩ := hx'
      exact htx ▸ List.mem_map_of_mem (fun e => e.target) he
    · simp only [decide_eq_true_eq]
      intro hcontra
      exact hcontra (List.mem_append_right s hx)

theorem closureIter_closed (edges : List Edge) :
    ∀ (fuel : Nat) (s : List String), potential edges s < fuel →
      newSuccs edges (closureIter edges fuel s) = [] := by
  intro fuel
  induction fuel with
  | zero => intro s h; omega
  | succ f ih =>
    intro s h
    rw [closureIter]
    by_cases hn : newSuccs edges s = []
    · rw [if_pos hn]; exact hn
    · rw [if_neg hn]
      apply ih
      have := potential_decrease edges s hn
      omega

theorem closureIter_mono (edges : List Edge) :
    ∀ (fuel : Nat) (s : List String) (x : String), x ∈ s →
      x ∈ closureIter edges fuel s := by
  intro fuel
  induction fuel with
  | zero => intro s x hx; exact hx
  | succ f ih =>
    intro s x hx
    rw [closureIter]
    by_cases hn : newSuccs edges s = []
    · rw [if_pos hn]; exact hx
    · rw [if_neg hn]
      exact ih _ x (List.mem_append_left _ hx)

theorem closed_absorbs_reach (edges : List Edge) (S : List String)
    (hclosed : newSuccs edges S = []) (a b : String)
    (hreach : Relation.ReflTransGen (edgeStep edges) a b) (ha : a ∈ S) : b ∈ S := by
  induction hreach with
  | refl => exact ha
  | tail hab hbc ihb =>
    rename_i b' c'
    by_cases hc : c' ∈ S
    · exact hc
    · obtain ⟨e, he, hsrc, htgt⟩ := hbc
      have : c' ∈ newSuccs edges S :=
        (mem_newSuccs edges S c').mpr ⟨hc, e, he, hsrc ▸ ihb, htgt⟩
      rw [hclosed] at this
      simp at this

theorem getInactiveNodes_start (edges : List Edge) (start : String) :
    start ∈ getInactiveNodes edges start :=
  closureIter_mono edges (edges.length + 1) [start] start (by simp)

theorem getInactiveNodes_reach (edges : List Edge) (start y : String)
    (h : Relation.ReflTransGen (edgeStep edges) start y) :
    y ∈ getInactiveNodes edges start := by
  have hpot : potential edges [start] < edges.length + 1 := by
    have h1 : potential edges [start]
        ≤ ((edges.map (fun e => e.target)).dedup).length :=
      List.length_filter_le _ _
    have h2 : ((edges.map (fun e => e.target)).dedup).length
        ≤ (edges.map (fun e => e.target)).length :=
      (List.dedup_sublist _).length_le
    have h3 : (edges.map (fun e => e.target)).length = edges.length :=
      List.length_map _ _
    omega
  have hclosed := closureIter_closed edges (edges.length + 1) [start] hpot
  exact closed_absorbs_reach edges _ hclosed start y h (getInactiveNodes_start edges start)

theorem foldl_inactive_mono (edges : List Edge) (x : String) :
    ∀ (ns : List Node) (acc : List String), x ∈ acc →
      x ∈ ns.foldl (fun acc n =>
        if n.data.active = some false then
          acc ++ (getInactiveNodes edges n.id).filter (fun i => i ∉ acc)
        else acc) acc := by
  intro ns
  induction ns with
  | nil => intro acc hx; exact hx
  | cons n rest ih =>
    intro acc hx
    rw [List.foldl_cons]
    by_cases hact : n.data.active = some false
    · rw [if_pos hact]
      exact ih _ (List.mem_append_left _ hx)
    · rw [if_neg hact]
      exact ih _ hx

theorem mem_allInactiveNodes (nodes : List Node) (edges : List Edge) (n : Node)
    (y : String) (hn : n ∈ nodes) (hact : n.data.active = some false)
    (hy : y ∈ getInactiveNodes edges n.id) : y ∈ allInactiveNodes nodes edges := by
  rw [allInactiveNodes]
  suffices h : ∀ (ns : List Node) (acc : List String), n ∈ ns →
      y ∈ ns.foldl (fun acc n =>
        if n.data.active = some false then
          acc ++ (getInactiveNodes edges n.id).filter (fun i => i ∉ acc)
        else acc) acc from h nodes [] hn
  intro ns
  induction ns with
  | nil => intro acc h; simp at h
  | cons m rest ih =>
    intro acc hmem
    rw [List.foldl_cons]
    rcases List.mem_cons.mp hmem with hnm | hnr
    · subst hnm
      rw [if_pos hact]
      apply foldl_inactive_mono
      by_cases hacc : y ∈ acc
      · exact List.mem_append_left _ hacc
      · refine List.mem_append_right _ ?_
        rw [List.mem_filter]
        exact ⟨hy, decide_eq_true hacc⟩
    · by_cases hact' : m.data.active = some false
      · rw [if_pos hact']
        exact ih _ hnr
      · rw [if_neg hact']
        exact ih _ hnr

-- ## Helper lemmas: skipped nodes in the orchestrator loop

theorem runNodes_skipset (o : Oracles) (idx : IndexedEdges) (skip : List String)
    (i : String) (hi : i ∈ skip) :
    ∀ (ns : List Node) (outs : List (String × String)) (evs : List Msg) (disp : Bool),
      hasStatusFor (runNodes o idx skip ns outs evs disp).events i = hasStatusFor evs i
      ∧ getk (runNodes o idx skip ns outs evs disp).outputs i = getk outs i := by
  intro ns
  induction ns with
  | nil =>
    intro outs evs disp
    rw [runNodes]
    refine ⟨?_, rfl⟩
    rw [hasStatusFor_append]
    have hsE : hasStatusFor [Msg.executionCompleted] i = false := by
      simp [hasStatusFor]
    rw [hsE, Bool.or_false]
  | cons node rest ih =>
    intro outs evs disp
    obtain ⟨nid, nty, nd⟩ := node
    by_cases hsk : nid ∈ skip
    · rw [runNodes]
      rw [if_pos hsk]
      exact ih outs evs disp
    · have hne : i ≠ nid := fun h => hsk (h ▸ hi)
      have hsingle : ∀ (st : NodeStatus) (r : Option String),
          hasStatusFor [Msg.nodeStatus nid st r] i = false := by
        intro st r
        simp [hasStatusFor, Ne.symm hne]
      have hpairFC : ∀ (st : NodeStatus) (r : Option String),
          hasStatusFor [Msg.nodeStatus nid st r, Msg.executionCompleted] i = false := by
        intro st r
        simp [hasStatusFor, Ne.symm hne]
      have hpairTC : ∀ (c : Nat) (r : Option String),
          hasStatusFor [Msg.tokenCount nid c,
            Msg.nodeStatus nid NodeStatus.completed r] i = false := by
        intro c r
        simp [hasStatusFor, Ne.symm hne]
      have hout : ∀ (outs' : List (String × String)) (r : String),
          getk (setk outs' nid r) i = getk outs' i := by
        intro outs' r
        rw [getk_setk, if_neg hne]
      rw [runNodes, if_neg hsk]
      cases nty with
      | cli =>
        simp only []
        rcases hcli : (executeCLINode o (renderedCLINode idx outs ⟨nid, .cli, nd⟩)).out
          with m | r
        · refine ⟨?_, rfl⟩
          have hc := executeCLINode_events_hasStatus o
            (renderedCLINode idx outs ⟨nid, .cli, nd⟩) i (by exact hne)
          rw [hasStatusFor_append, hasStatusFor_append, hasStatusFor_append,
            hsingle, hc, hpairFC, Bool.or_false, Bool.or_false, Bool.or_false]
        · have hstep := ih (setk outs nid r)
            (evs ++ [Msg.nodeStatus nid NodeStatus.running none]
              ++ (executeCLINode o (renderedCLINode idx outs ⟨nid, .cli, nd⟩)).events
              ++ [Msg.nodeStatus nid NodeStatus.completed (some r)])
            (disp || (executeCLINode o (renderedCLINode idx outs ⟨nid, .cli, nd⟩)).disposed)
          refine ⟨?_, ?_⟩
          · rw [hstep.1]
            have hc := executeCLINode_events_hasStatus o
              (renderedCLINode idx outs ⟨nid, .cli, nd⟩) i (by exact hne)
            rw [hasStatusFor_append, hasStatusFor_append, hasStatusFor_append,
              hsingle, hc, hsingle, Bool.or_false, Bool.or_false, Bool.or_false]
          · rw [hstep.2, hout]
      | llm =>
        simp only []
        rcases hllm : executeLLMNode o (renderedLLMNode idx outs ⟨nid, .llm, nd⟩)
          with m | r
        · refine ⟨?_, rfl⟩
          rw [hasStatusFor_append, hsingle, Bool.or_false]
        · have hstep := ih (setk outs nid r)
            (evs ++ [Msg.nodeStatus nid NodeStatus.running none]
              ++ [Msg.nodeStatus nid NodeStatus.completed (some r)]) disp
          refine ⟨?_, ?_⟩
          · rw [hstep.1, hasStatusFor_append, hasStatusFor_append,
              hsingle, hsingle, Bool.or_false, Bool.or_false]
          · rw [hstep.2, hout]
      | preview =>
        simp only []
        refine ⟨?_, ?_⟩
        · rw [(ih _ _ _).1, hasStatusFor_append, hasStatusFor_append,
            hsingle, hpairTC, Bool.or_false, Bool.or_false]
        · rw [(ih _ _ _).2, hout]
      | input =>
        simp only []
        refine ⟨?_, ?_⟩
        · rw [(ih _ _ _).1, hasStatusFor_append, hasStatusFor_append,
            hsingle, hsingle, Bool.or_false, Bool.or_false]
        · rw [(ih _ _ _).2, hout]
      | searchContext =>
        simp only []
        refine ⟨?_, ?_⟩
        · rw [(ih _ _ _).1, hasStatusFor_append, hasStatusFor_append,
            hsingle, hsingle, Bool.or_false, Bool.or_false]
        · rw [(ih _ _ _).2, hout]
      | other ty =>
        refine ⟨?_, rfl⟩
        rw [hasStatusFor_append, hsingle, Bool.or_false]

-- ## Claim C9

/-- C9: any node forward-reachable (through the edges) from a node marked
inactive is excluded from the run entirely: it gains no
`node_execution_status` event and records no output.  This covers the
spec's instance — X inactive, Y depending on X and Z on Y excludes Y and Z
from execution and from status events. -/
theorem c9_inactive_closure_skipped (o : Oracles) (nodes : List Node)
    (edges : List Edge) (x : Node) (y : String)
    (hx : x ∈ nodes) (hact : x.data.active = some false)
    (hreach : Relation.ReflTransGen (edgeStep edges) x.id y) :
    hasStatusFor (executeWorkflow o nodes edges).events y = false
    ∧ getk (executeWorkflow o nodes edges).outputs y = none := by
  have hskip : y ∈ allInactiveNodes nodes edges :=
    mem_allInactiveNodes nodes edges x y hx hact (getInactiveNodes_reach edges x.id y hreach)
  have h := runNodes_skipset o (createEdgeIndex edges) (allInactiveNodes nodes edges)
    y hskip (topologicalSort nodes edges) [] [.executionStarted] false
  rw [executeWorkflow]
  refine ⟨?_, ?_⟩
  · rw [h.1]
    simp [hasStatusFor]
  · rw [h.2]
    rfl

/-- Witness for C9: the chain X → Y → Z with X inactive; Z (reached through
Y) gains no status event and records no output. -/
theorem c9_inactive_closure_skipped_witness :
    (⟨"x", .input, ⟨"t", "1", some false, none⟩⟩ : Node)
        ∈ [(⟨"x", .input, ⟨"t", "1", some false, none⟩⟩ : Node),
           inputNode "y" "2", inputNode "z" "3"]
    ∧ (⟨"x", .input, ⟨"t", "1", some false, none⟩⟩ : Node).data.active = some false
    ∧ hasStatusFor (executeWorkflow oBase
        [⟨"x", .input, ⟨"t", "1", some false, none⟩⟩, inputNode "y" "2", inputNode "z" "3"]
        [⟨"e1", "x", "y"⟩, ⟨"e2", "y", "z"⟩]).events "z" = false
    ∧ getk (executeWorkflow oBase
        [⟨"x", .input, ⟨"t", "1", some false, none⟩⟩, inputNode "y" "2", inputNode "z" "3"]
        [⟨"e1", "x", "y"⟩, ⟨"e2", "y", "z"⟩]).outputs "z" = none := by
  have hreach : Relation.ReflTransGen
      (edgeStep [(⟨"e1", "x", "y"⟩ : Edge), ⟨"e2", "y", "z"⟩]) "x" "z" := by
    have hstep1 : edgeStep [(⟨"e1", "x", "y"⟩ : Edge), ⟨"e2", "y", "z"⟩] "x" "y" :=
      ⟨⟨"e1", "x", "y"⟩, by simp, rfl, rfl⟩
    have hstep2 : edgeStep [(⟨"e1", "x", "y"⟩ : Edge), ⟨"e2", "y", "z"⟩] "y" "z" :=
      ⟨⟨"e2", "y", "z"⟩, by simp, rfl, rfl⟩
    exact Relation.ReflTransGen.tail (Relation.ReflTransGen.single hstep1) hstep2
  have h := c9_inactive_closure_skipped oBase
    [⟨"x", .input, ⟨"t", "1", some false, none⟩⟩, inputNode "y" "2", inputNode "z" "3"]
    [⟨"e1", "x", "y"⟩, ⟨"e2", "y", "z"⟩]
    ⟨"x", .input, ⟨"t", "1", some false, none⟩⟩ "z" (by simp) rfl hreach
  exact ⟨by simp, rfl, h.1, h.2⟩

-- ## Helper lemmas: node lookup by id and the sort stages

theorem topologicalSort_eq_stages (nodes : List Node) (edges : List Edge) :
    topologicalSort nodes edges
      = (tsResIds nodes edges).filterMap (fun i => lastNodeWithId nodes i) := rfl

theorem lastNode_foldl_or (i : String) :
    ∀ (ns : List Node) (acc : Option Node),
      ns.foldl (fun a n => if n.id = i then some n else a) acc
        = (lastNodeWithId ns i).or acc := by
  intro ns
  induction ns with
  | nil => intro acc; simp [lastNodeWithId]
  | cons n rest ih =>
    intro acc
    rw [List.foldl_cons, ih]
    conv_rhs => rw [lastNodeWithId, List.foldl_cons, ih]
    cases hL : lastNodeWithId rest i with
    | some x => simp
    | none =>
      by_cases hP : n.id = i <;> simp [hP]

theorem lastNode_mem (i : String) :
    ∀ (ns : List Node) (x : Node), lastNodeWithId ns i = some x → x ∈ ns ∧ x.id = i := by
  intro ns
  induction ns with
  | nil => intro x h; exact absurd h (by simp [lastNodeWithId])
  | cons n rest ih =>
    intro x h
    rw [lastNodeWithId, List.foldl_cons, lastNode_foldl_or] at h
    cases hL : lastNodeWithId rest i with
    | some y =>
      rw [hL] at h
      simp at h
      subst h
      obtain ⟨hy, hid⟩ := ih y hL
      exact ⟨by simp [hy], hid⟩
    | none =>
      rw [hL] at h
      simp at h
      obtain ⟨hid, hxn⟩ := h
      subst hxn
      exact ⟨by simp, hid⟩

theorem lastNode_none_of (i : String) :
    ∀ ns : List Node, (∀ x ∈ ns, x.id ≠ i) → lastNodeWithId ns i = none := by
  intro ns
  induction ns with
  | nil => intro _; rfl
  | cons n rest ih =>
    intro h
    rw [lastNodeWithId, List.foldl_cons, lastNode_foldl_or,
      ih (fun x hx => h x (by simp [hx]))]
    simp [h n (by simp)]

theorem lastNode_unique :
    ∀ (nodes : List Node), (nodeIds nodes).Nodup → ∀ n ∈ nodes,
      lastNodeWithId nodes n.id = some n := by
  intro nodes
  induction nodes with
  | nil => intro _ n hn; cases hn
  | cons m rest ih =>
    intro hnd n hn
    simp only [nodeIds, List.map_cons, List.nodup_cons] at hnd
    rw [lastNodeWithId, List.foldl_cons, lastNode_foldl_or]
    rcases List.mem_cons.mp hn with hnm | hnr
    · subst hnm
      rw [lastNode_none_of n.id rest
        (fun x hx hcontra => hnd.1 (hcontra ▸ List.mem_map_of_mem (fun y => y.id) hx))]
      simp
    · rw [show lastNodeWithId rest n.id = some n from ih hnd.2 n hnr]
      simp

theorem exists_node_of_mem_ids (nodes : List Node) (i : String)
    (h : i ∈ nodeIds nodes) : ∃ n ∈ nodes, n.id = i := by
  simpa [nodeIds] using h

theorem filterMap_lastNode_map_id (nodes : List Node) (hnd : (nodeIds nodes).Nodup) :
    ∀ l : List String, (∀ x ∈ l, x ∈ nodeIds nodes) →
      ((l.filterMap (fun i => lastNodeWithId nodes i)).map (fun n => n.id)) = l := by
  intro l
  induction l with
  | nil => intro _; rfl
  | cons i rest ih =>
    intro h
    obtain ⟨n, hn, hni⟩ := exists_node_of_mem_ids nodes i (h i (by simp))
    have hlast : lastNodeWithId nodes i = some n := hni ▸ lastNode_unique nodes hnd n hn
    rw [List.filterMap_cons, hlast]
    simp only [List.map_cons, hni]
    rw [ih (fun x hx => h x (by simp [hx]))]

theorem filterMap_lastNode_subset (nodes : List Node) (l : List String) :
    ∀ x ∈ l.filterMap (fun i => lastNodeWithId nodes i), x ∈ nodes := by
  intro x hx
  rw [List.mem_filterMap] at hx
  obtain ⟨i, _, hi⟩ := hx
  exact (lastNode_mem i nodes x hi).1

theorem nodeIds_filterMap_lastNode (nodes : List Node) (hnd : (nodeIds nodes).Nodup) :
    (nodeIds nodes).filterMap (fun i => lastNodeWithId nodes i) = nodes := by
  rw [nodeIds, List.filterMap_map]
  have hcongr : ∀ n ∈ nodes,
      ((fun i => lastNodeWithId nodes i) ∘ fun n => n.id) n = some n := by
    intro n hn
    exact lastNode_unique nodes hnd n hn
  calc nodes.filterMap ((fun i => lastNodeWithId nodes i) ∘ fun n => n.id)
      = nodes.filterMap some := List.filterMap_congr hcongr
    _ = nodes := List.filterMap_some nodes

theorem getk_foldl_setk (f : String → Option Int) :
    ∀ (ns : List Node) (m : IndMap) (t : String),
      getk (ns.foldl (fun m n => setk m n.id (f n.id)) m) t
        = if t ∈ nodeIds ns then some (f t) else getk m t := by
  intro ns
  induction ns with
  | nil => intro m t; simp [nodeIds]
  | cons n rest ih =>
    intro m t
    rw [List.foldl_cons, ih]
    by_cases hr : t ∈ nodeIds rest
    · rw [if_pos hr, if_pos (by simp [nodeIds] at hr ⊢; right; exact hr)]
    · rw [if_neg hr, getk_setk]
      by_cases hn : t = n.id
      · subst hn
        rw [if_pos rfl, if_pos (by simp [nodeIds])]
      · rw [if_neg hn, if_neg (by
          simp only [nodeIds, List.map_cons, List.mem_cons]
          rintro (h1 | h2)
          · exact hn h1
          · exact hr (by simpa [nodeIds] using h2))]

theorem getk_tsInd0 (nodes : List Node) (edges : List Edge) (t : String) :
    getk (tsInd0 nodes edges) t
      = if t ∈ nodeIds nodes then some (some ((inCnt edges t : Nat) : Int)) else none := by
  rw [tsInd0]
  have h := getk_foldl_setk
    (fun i => some (((getEdges (createEdgeIndex edges).byTarget i).length : Int)))
    nodes [] t
  rw [h, getk_nil]
  by_cases ht : t ∈ nodeIds nodes
  · rw [if_pos ht, if_pos ht, getEdges_byTarget]
    rfl
  · rw [if_neg ht, if_neg ht]

-- ## Helper lemmas: the Kahn loop on arbitrary graphs (GInv)

theorem loopTS_cons (idx : IndexedEdges) (f : Nat) (nh : String) (rest : List String)
    (ind : IndMap) (res : List String) :
    loopTS idx (f + 1) (nh :: rest) ind res
      = loopTS idx f (processEdges (getEdges idx.bySource nh) ind rest).2
          (processEdges (getEdges idx.bySource nh) ind rest).1 (res ++ [nh]) := rfl

theorem processEdges_ginv (edges : List Edge) (ids : List String) (n : String) :
    ∀ (outs : List Edge) (ind : IndMap) (qu res : List String),
      GInv edges ids qu res ind →
      (∀ e ∈ outs, e ∈ edges ∧ e.source = n) →
      n ∈ res →
      GInv edges ids (processEdges outs ind qu).2 res (processEdges outs ind qu).1 := by
  intro outs
  induction outs with
  | nil => intro ind qu res hG _ _; exact hG
  | cons e es ih =>
    intro ind qu res hG houts hn
    have he : e ∈ edges := (houts e (by simp)).1
    have hes : e.source = n := (houts e (by simp)).2
    rcases hv : getk ind e.target with _ | ko
    · -- missing entry: becomes `NaN`, no push
      have hstep : processEdges (e :: es) ind qu
          = processEdges es (setk ind e.target none) qu := by
        simp [processEdges, hv]
      rw [hstep]
      refine ih _ _ _ ?_ (fun e' he' => houts e' (by simp [he'])) hn
      have hnotin : e.target ∉ res ++ qu := by
        intro hmem
        obtain ⟨k, _, hk⟩ := hG.nonpos e.target hmem
        rw [hv] at hk
        exact absurd hk (by simp)
      refine ⟨hG.nodupRQ, hG.subsetRQ, ?_, ?_, hG.reach⟩
      · intro t ht
        obtain ⟨k, hk0, hk⟩ := hG.nonpos t ht
        refine ⟨k, hk0, ?_⟩
        rw [getk_setk, if_neg (fun (hteq : t = e.target) => hnotin (hteq ▸ ht))]
        exact hk
      · intro t k hk
        rw [getk_setk] at hk
        by_cases hteq : t = e.target
        · rw [if_pos hteq] at hk; exact absurd hk (by simp)
        · rw [if_neg hteq] at hk; exact hG.intdom t k hk
    · rcases ko with _ | k
      · -- `NaN` entry: stays `NaN`, no push
        have hstep : processEdges (e :: es) ind qu
            = processEdges es (setk ind e.target none) qu := by
          simp [processEdges, hv]
        rw [hstep]
        refine ih _ _ _ ?_ (fun e' he' => houts e' (by simp [he'])) hn
        have hnotin : e.target ∉ res ++ qu := by
          intro hmem
          obtain ⟨k, _, hk⟩ := hG.nonpos e.target hmem
          rw [hv] at hk
          exact absurd hk (by simp)
        refine ⟨hG.nodupRQ, hG.subsetRQ, ?_, ?_, hG.reach⟩
        · intro t ht
          obtain ⟨k, hk0, hk⟩ := hG.nonpos t ht
          refine ⟨k, hk0, ?_⟩
          rw [getk_setk, if_neg (fun (hteq : t = e.target) => hnotin (hteq ▸ ht))]
          exact hk
        · intro t k hk
          rw [getk_setk] at hk
          by_cases hteq : t = e.target
          · rw [if_pos hteq] at hk; exact absurd hk (by simp)
          · rw [if_neg hteq] at hk; exact hG.intdom t k hk
      · by_cases hk1 : k = 1
        · -- the entry drops to zero: the target is pushed
          subst hk1
          have hstep : processEdges (e :: es) ind qu
              = processEdges es (setk ind e.target (some 0)) (qu ++ [e.target]) := by
            norm_num [processEdges, hv]
          rw [hstep]
          have htid : e.target ∈ ids := hG.intdom e.target 1 hv
          have hnotin : e.target ∉ res ++ qu := by
            intro hmem
            obtain ⟨k', hk0, hk⟩ := hG.nonpos e.target hmem
            rw [hv] at hk
            have : k' = 1 := by simpa using hk.symm
            omega
          refine ih _ _ _ ?_ (fun e' he' => houts e' (by simp [he'])) hn
          refine ⟨?_, ?_, ?_, ?_, ?_⟩
          · have heq : res ++ (qu ++ [e.target]) = (res ++ qu) ++ [e.target] := by simp
            rw [heq]
            refine List.Nodup.append hG.nodupRQ (by simp) ?_
            intro a ha hb
            simp at hb
            exact hnotin (hb ▸ ha)
          · intro x hx
            rcases List.mem_append.mp hx with hx1 | hx2
            · exact hG.subsetRQ x (List.mem_append_left _ hx1)
            · rcases List.mem_append.mp hx2 with hx3 | hx4
              · exact hG.subsetRQ x (List.mem_append_right _ hx3)
              · simp at hx4
                exact hx4 ▸ htid
          · intro t ht
            by_cases hteq : t = e.target
            · subst hteq
              exact ⟨0, le_rfl, by rw [getk_setk, if_pos rfl]⟩
            · have ht' : t ∈ res ++ qu := by
                rcases List.mem_append.mp ht with h1 | h2
                · exact List.mem_append_left _ h1
                · rcases List.mem_append.mp h2 with h3 | h4
                  · exact List.mem_append_right _ h3
                  · simp at h4; exact absurd h4 hteq
              obtain ⟨k', hk0, hk⟩ := hG.nonpos t ht'
              exact ⟨k', hk0, by rw [getk_setk, if_neg hteq]; exact hk⟩
          · intro t k' hk
            rw [getk_setk] at hk
            by_cases hteq : t = e.target
            · subst hteq; exact htid
            · rw [if_neg hteq] at hk
              exact hG.intdom t k' hk
          · intro t ht
            by_cases hteq : t = e.target
            · subst hteq
              obtain ⟨sN, hsN, hs0, hsr⟩ := hG.reach n (List.mem_append_left _ hn)
              exact ⟨sN, hsN, hs0, hsr.tail ⟨e, he, hes, rfl⟩⟩
            · have ht' : t ∈ res ++ qu := by
                rcases List.mem_append.mp ht with h1 | h2
                · exact List.mem_append_left _ h1
                · rcases List.mem_append.mp h2 with h3 | h4
                  · exact List.mem_append_right _ h3
                  · simp at h4; exact absurd h4 hteq
              exact hG.reach t ht'
        · -- the entry stays nonzero: no push
          have hknz : ¬ (k - 1 = 0) := by omega
          have hstep : processEdges (e :: es) ind qu
              = processEdges es (setk ind e.target (some (k - 1))) qu := by
            simp [processEdges, hv, hknz]
          rw [hstep]
          refine ih _ _ _ ?_ (fun e' he' => houts e' (by simp [he'])) hn
          refine ⟨hG.nodupRQ, hG.subsetRQ, ?_, ?_, hG.reach⟩
          · intro t ht
            by_cases hteq : t = e.target
            · subst hteq
              obtain ⟨k', hk0, hk⟩ := hG.nonpos e.target ht
              rw [hv] at hk
              have hkk : k = k' := by simpa using hk
              exact ⟨k - 1, by omega, by rw [getk_setk, if_pos rfl]⟩
            · obtain ⟨k', hk0, hk⟩ := hG.nonpos t ht
              exact ⟨k', hk0, by rw [getk_setk, if_neg hteq]; exact hk⟩
          · intro t k' hk
            rw [getk_setk] at hk
            by_cases hteq : t = e.target
            · subst hteq; exact hG.intdom e.target k hv
            · rw [if_neg hteq] at hk
              exact hG.intdom t k' hk

theorem ginv_shift (edges : List Edge) (ids : List String)
    (res rest : List String) (nh : String) (ind : IndMap)
    (h : GInv edges ids (nh :: rest) res ind) :
    GInv edges ids rest (res ++ [nh]) ind := by
  have heq : (res ++ [nh]) ++ rest = res ++ nh :: rest := by simp
  refine ⟨?_, ?_, ?_, h.intdom, ?_⟩
  · rw [heq]; exact h.nodupRQ
  · rw [heq]; exact h.subsetRQ
  · rw [heq]; exact h.nonpos
  · rw [heq]; exact h.reach

theorem loopTS_ginv (edges : List Edge) (ids : List String) :
    ∀ (fuel : Nat) (qu res : List String) (ind : IndMap),
      qu.length + posCount ind ≤ fuel →
      GInv edges ids qu res ind →
      (loopTS (createEdgeIndex edges) fuel qu ind res).Nodup
      ∧ (∀ x ∈ loopTS (createEdgeIndex edges) fuel qu ind res, x ∈ ids)
      ∧ (∀ x ∈ loopTS (createEdgeIndex edges) fuel qu ind res,
          ∃ s ∈ ids, inCnt edges s = 0 ∧ Relation.ReflTransGen (edgeStep edges) s x) := by
  intro fuel
  induction fuel with
  | zero =>
    intro qu res ind hm hG
    have hqu : qu = [] := List.length_eq_zero.mp (by omega)
    subst hqu
    rw [loopTS]
    have heq : res ++ ([] : List String) = res := by simp
    exact ⟨by have := hG.nodupRQ; rwa [heq] at this,
      fun x hx => hG.subsetRQ x (by rw [heq]; exact hx),
      fun x hx => hG.reach x (by rw [heq]; exact hx)⟩
  | succ f ih =>
    intro qu res ind hm hG
    cases qu with
    | nil =>
      rw [loopTS]
      have heq : res ++ ([] : List String) = res := by simp
      exact ⟨by have := hG.nodupRQ; rwa [heq] at this,
        fun x hx => hG.subsetRQ x (by rw [heq]; exact hx),
        fun x hx => hG.reach x (by rw [heq]; exact hx)⟩
    | cons nh rest =>
      rw [loopTS_cons]
      have hout : ∀ e ∈ getEdges (createEdgeIndex edges).bySource nh,
          e ∈ edges ∧ e.source = nh := by
        intro e hee
        rw [getEdges_bySource] at hee
        rw [List.mem_filter] at hee
        exact ⟨hee.1, of_decide_eq_true hee.2⟩
      have hG2 := processEdges_ginv edges ids nh
        (getEdges (createEdgeIndex edges).bySource nh) ind rest (res ++ [nh])
        (ginv_shift edges ids res rest nh ind hG) hout (by simp)
      have hmeas := processEdges_measure (getEdges (createEdgeIndex edges).bySource nh)
        ind rest
      refine ih _ _ _ ?_ hG2
      simp only [List.length_cons] at hm
      omega

theorem ginv_init (nodes : List Node) (edges : List Edge)
    (hnd : (nodeIds nodes).Nodup) :
    GInv edges (nodeIds nodes) (tsQueue nodes edges) [] (tsInd0 nodes edges) := by
  have hqmem : ∀ t ∈ tsQueue nodes edges,
      t ∈ nodeIds nodes ∧ getk (tsInd0 nodes edges) t = some (some 0) := by
    intro t ht
    rw [tsQueue, List.mem_map] at ht
    obtain ⟨n, hn, hni⟩ := ht
    rw [List.mem_filter] at hn
    have hcond := of_decide_eq_true hn.2
    exact ⟨hni ▸ List.mem_map_of_mem (fun y => y.id) hn.1, hni ▸ hcond⟩
  refine ⟨?_, ?_, ?_, ?_, ?_⟩
  · rw [List.nil_append, tsQueue]
    exact hnd.sublist ((List.filter_sublist nodes).map (fun n => n.id))
  · intro x hx
    rw [List.nil_append] at hx
    exact (hqmem x hx).1
  · intro t ht
    rw [List.nil_append] at ht
    exact ⟨0, le_rfl, (hqmem t ht).2⟩
  · intro t k hk
    rw [getk_tsInd0] at hk
    by_cases ht : t ∈ nodeIds nodes
    · exact ht
    · rw [if_neg ht] at hk; exact absurd hk (by simp)
  · intro t ht
    rw [List.nil_append] at ht
    obtain ⟨hti, htv⟩ := hqmem t ht
    rw [getk_tsInd0, if_pos hti] at htv
    have h0 : ((inCnt edges t : Nat) : Int) = 0 := by simpa using htv
    have h0' : inCnt edges t = 0 := by exact_mod_cast h0
    exact ⟨t, hti, h0', Relation.ReflTransGen.refl⟩

-- ## Claim C4 (counterexample and amended statement)

/-- C4 counterexample: the claim quantifies over every input graph, but with
two distinct nodes sharing the id `A` the sorter returns the second node
twice — the result does not contain each input node at most once (and is not
a subsequence of any ordering of the input). -/
theorem c4_counterexample :
    (topologicalSort
        [⟨"A", .cli, ⟨"1", "", none, none⟩⟩, ⟨"A", .cli, ⟨"2", "", none, none⟩⟩] []).count
      (⟨"A", .cli, ⟨"2", "", none, none⟩⟩ : Node) = 2 := by decide

/-- C4 amended: for every input graph whose node ids are distinct (cyclic or
not, dangling edge endpoints allowed), `topologicalSort` returns each input
node at most once — the result is duplicate-free and a subsequence of some
ordering of the input nodes — and every returned node is reachable from some
zero-in-degree node; nodes unreachable from the zero-in-degree seed set are
absent, and no cycle-detection error is raised (the function is total). -/
theorem c4_no_cycle_error (nodes : List Node) (edges : List Edge)
    (hnd : (nodeIds nodes).Nodup) :
    (topologicalSort nodes edges).Nodup
    ∧ (topologicalSort nodes edges).Subperm nodes
    ∧ ∀ x ∈ topologicalSort nodes edges, ∃ s ∈ nodes, inCnt edges s.id = 0 ∧
        Relation.ReflTransGen (edgeStep edges) s.id x.id := by
  have hG := loopTS_ginv edges (nodeIds nodes)
    ((tsQueue nodes edges).length + posCount (tsInd0 nodes edges))
    (tsQueue nodes edges) [] (tsInd0 nodes edges) le_rfl (ginv_init nodes edges hnd)
  rw [show loopTS (createEdgeIndex edges)
      ((tsQueue nodes edges).length + posCount (tsInd0 nodes edges))
      (tsQueue nodes edges) (tsInd0 nodes edges) [] = tsResIds nodes edges from rfl] at hG
  obtain ⟨hnodup, hsub, hreach⟩ := hG
  rw [topologicalSort_eq_stages]
  have hmapid := filterMap_lastNode_map_id nodes hnd (tsResIds nodes edges) hsub
  refine ⟨?_, ?_, ?_⟩
  · exact List.Nodup.of_map _ (by rw [hmapid]; exact hnodup)
  · exact List.subperm_of_subset
      (List.Nodup.of_map _ (by rw [hmapid]; exact hnodup))
      (filterMap_lastNode_subset nodes (tsResIds nodes edges))
  · intro x hx
    rw [List.mem_filterMap] at hx
    obtain ⟨i, hi, hxi⟩ := hx
    obtain ⟨hxmem, hxid⟩ := lastNode_mem i nodes x hxi
    obtain ⟨sid, hsid, hs0, hsr⟩ := hreach i hi
    obtain ⟨sN, hsN, hsNid⟩ := exists_node_of_mem_ids nodes sid hsid
    exact ⟨sN, hsN, hsNid ▸ hs0, by rw [hsNid, hxid]; exact hsr⟩

/-- Witness for the amended C4 on a cyclic graph: the two-node cycle yields
the empty result (nodes inside the cycle are dropped, no error is raised). -/
theorem c4_no_cycle_error_witness :
    ((nodeIds [cliNode "a" "", cliNode "b" ""]).Nodup)
    ∧ (topologicalSort [cliNode "a" "", cliNode "b" ""]
        [⟨"e1", "a", "b"⟩, ⟨"e2", "b", "a"⟩]).Nodup
    ∧ (topologicalSort [cliNode "a" "", cliNode "b" ""]
        [⟨"e1", "a", "b"⟩, ⟨"e2", "b", "a"⟩]).Subperm [cliNode "a" "", cliNode "b" ""] := by
  have h := c4_no_cycle_error [cliNode "a" "", cliNode "b" ""]
    [⟨"e1", "a", "b"⟩, ⟨"e2", "b", "a"⟩] (by decide)
  exact ⟨by decide, h.1, h.2.1⟩

-- ## Helper lemmas: the Kahn loop on well-formed graphs (KInv)

theorem cntRem_cons (e : Edge) (es : List Edge) (res : List String) (t : String) :
    cntRem (e :: es) res t
      = (if e.target = t ∧ e.source ∉ res then 1 else 0) + cntRem es res t := by
  rw [cntRem, cntRem, List.filter_cons]
  by_cases h : e.target = t ∧ e.source ∉ res
  · rw [if_pos (decide_eq_true h), if_pos h]
    simp [Nat.add_comm]
  · rw [if_neg (by simpa using h), if_neg h]
    simp

theorem cntTodo_cons (e : Edge) (es : List Edge) (t : String) :
    cntTodo (e :: es) t = (if e.target = t then 1 else 0) + cntTodo es t := by
  rw [cntTodo, cntTodo, List.filter_cons]
  by_cases h : e.target = t
  · rw [if_pos (decide_eq_true h), if_pos h]
    simp [Nat.add_comm]
  · rw [if_neg (by simpa using h), if_neg h]
    simp

theorem cntTodo_nil (t : String) : cntTodo [] t = 0 := rfl

theorem inCnt_eq_cntTodo (edges : List Edge) (t : String) :
    inCnt edges t = cntTodo edges t := rfl

theorem cntRem_nil_res (edges : List Edge) (t : String) :
    cntRem edges [] t = inCnt edges t := by
  induction edges with
  | nil => rfl
  | cons e es ih =>
    rw [cntRem_cons, ih, inCnt_eq_cntTodo, inCnt_eq_cntTodo, cntTodo_cons]
    by_cases h : e.target = t
    · rw [if_pos ⟨h, by simp⟩, if_pos h]
    · rw [if_neg (by rintro ⟨h1, -⟩; exact h h1), if_neg h]

theorem cntRem_split (res : List String) (nh t : String) (hnotin : nh ∉ res) :
    ∀ edges : List Edge,
      cntRem edges res t
        = cntRem edges (res ++ [nh]) t
          + cntTodo (edges.filter (fun e => decide (e.source = nh))) t := by
  intro edges
  induction edges with
  | nil => rfl
  | cons e es ih =>
    by_cases hsrc : e.source = nh
    · have hfil : (e :: es).filter (fun e' => decide (e'.source = nh))
          = e :: es.filter (fun e' => decide (e'.source = nh)) := by
        rw [List.filter_cons, if_pos (decide_eq_true hsrc)]
      rw [cntRem_cons, cntRem_cons, hfil, cntTodo_cons, ih]
      by_cases htgt : e.target = t
      · rw [if_pos ⟨htgt, show e.source ∉ res by rw [hsrc]; exact hnotin⟩,
          if_neg (show ¬ (e.target = t ∧ e.source ∉ res ++ [nh]) by
            rintro ⟨-, hmem⟩
            exact hmem (by simp [hsrc])),
          if_pos htgt]
        omega
      · rw [if_neg (fun hc => htgt hc.1), if_neg (fun hc => htgt hc.1), if_neg htgt]
        omega
    · have hfil : (e :: es).filter (fun e' => decide (e'.source = nh))
          = es.filter (fun e' => decide (e'.source = nh)) := by
        rw [List.filter_cons, if_neg (by simpa using hsrc)]
      rw [cntRem_cons, cntRem_cons, hfil, ih]
      by_cases htgt : e.target = t
      · by_cases hmem : e.source ∈ res
        · rw [if_neg (fun hc => hc.2 hmem),
            if_neg (fun hc => hc.2 (show e.source ∈ res ++ [nh] by simp [hmem]))]
          omega
        · have hmem' : e.source ∉ res ++ [nh] := by
            intro hc
            rcases List.mem_append.mp hc with h1 | h2
            · exact hmem h1
            · simp at h2; exact hsrc h2
          rw [if_pos ⟨htgt, hmem⟩, if_pos ⟨htgt, hmem'⟩]
          omega
      · rw [if_neg (fun hc => htgt hc.1), if_neg (fun hc => htgt hc.1)]
        omega

theorem kinv_init (nodes : List Node) (edges : List Edge)
    (hnd : (nodeIds nodes).Nodup)
    (htgt : ∀ e ∈ edges, e.target ∈ nodeIds nodes) :
    KInv edges (nodeIds nodes) (tsQueue nodes edges) [] (tsInd0 nodes edges) := by
  have hG := ginv_init nodes edges hnd
  have hzero : ∀ t ∈ nodeIds nodes,
      (t ∈ tsQueue nodes edges ↔ inCnt edges t = 0) := by
    intro t ht
    constructor
    · intro hq
      obtain ⟨hti, htv⟩ := (by
        rw [tsQueue, List.mem_map] at hq
        obtain ⟨n, hn, hni⟩ := hq
        rw [List.mem_filter] at hn
        exact ⟨hni ▸ List.mem_map_of_mem (fun y => y.id) hn.1,
          hni ▸ of_decide_eq_true hn.2⟩ :
          t ∈ nodeIds nodes ∧ getk (tsInd0 nodes edges) t = some (some 0))
      rw [getk_tsInd0, if_pos hti] at htv
      have h0 : ((inCnt edges t : Nat) : Int) = 0 := by simpa using htv
      exact_mod_cast h0
    · intro h0
      obtain ⟨n, hn, hni⟩ := exists_node_of_mem_ids nodes t ht
      rw [tsQueue, List.mem_map]
      refine ⟨n, ?_, hni⟩
      rw [List.mem_filter]
      refine ⟨hn, decide_eq_true ?_⟩
      rw [getk_tsInd0, if_pos (hni ▸ ht : n.id ∈ nodeIds nodes), hni, h0]
      rfl
  refine ⟨hG.nodupRQ, hG.subsetRQ, ?_, ?_, ?_, ?_⟩
  · intro t ht
    rw [getk_tsInd0, if_pos ht, cntRem_nil_res]
  · intro t ht
    rw [cntRem_nil_res]
    constructor
    · rintro (h1 | h2)
      · simp at h1
      · exact (hzero t ht).mp h2
    · intro h0
      exact Or.inr ((hzero t ht).mpr h0)
  · intro e he htq
    have h0 : inCnt edges e.target = 0 :=
      (hzero e.target (htgt e he)).mp htq
    have hmem : e ∈ edges.filter (fun e' => decide (e'.target = e.target)) := by
      rw [List.mem_filter]
      exact ⟨he, decide_eq_true rfl⟩
    rw [inCnt] at h0
    rw [List.length_eq_zero.mp h0] at hmem
    cases hmem
  · intro e _ hmem
    cases hmem

theorem kinv_pop (edges : List Edge) (ids : List String) (res rest : List String)
    (nh : String) (ind : IndMap) (h : KInv edges ids (nh :: rest) res ind) :
    JInv edges ids (res ++ [nh]) (edges.filter (fun e => decide (e.source = nh))) rest ind := by
  have hnotin : nh ∉ res := by
    have hd := List.disjoint_of_nodup_append h.nodupRQ
    intro hc
    exact hd hc (by simp)
  have heq : (res ++ [nh]) ++ rest = res ++ nh :: rest := by simp
  have hcnt : ∀ t, cntRem edges res t
      = cntRem edges (res ++ [nh]) t
        + cntTodo (edges.filter (fun e => decide (e.source = nh))) t :=
    fun t => cntRem_split res nh t hnotin edges
  refine ⟨?_, ?_, ?_, ?_, ?_, ?_⟩
  · rw [heq]; exact h.nodupRQ
  · rw [heq]; exact h.subsetRQ
  · intro t ht
    rw [← hcnt t]
    exact h.count t ht
  · intro t ht
    rw [← hcnt t]
    have hr := h.ready t ht
    constructor
    · rintro (h1 | h2)
      · rcases List.mem_append.mp h1 with hh | hh
        · exact hr.mp (Or.inl hh)
        · simp at hh
          exact hr.mp (Or.inr (by simp [hh]))
      · exact hr.mp (Or.inr (by simp [h2]))
    · intro h0
      rcases hr.mpr h0 with h1 | h2
      · exact Or.inl (List.mem_append_left _ h1)
      · rcases List.mem_cons.mp h2 with hh | hh
        · exact Or.inl (List.mem_append_right _ (by simp [hh]))
        · exact Or.inr hh
  · intro e he htq
    exact List.mem_append_left _ (h.fence e he (by simp [htq]))
  · intro e he htr
    rcases List.mem_append.mp htr with h1 | h2
    · exact (h.order e he h1).trans (List.sublist_append_left _ _)
    · simp at h2
      have hsrc : e.source ∈ res := h.fence e he (by simp [h2])
      have hs : [e.source].Sublist res := List.singleton_sublist.mpr hsrc
      rw [h2]
      exact hs.append (List.Sublist.refl [nh])

theorem processEdges_kinv (edges : List Edge) (ids : List String)
    (htgt : ∀ e ∈ edges, e.target ∈ ids) (n : String) (res : List String) :
    ∀ (todo : List Edge) (ind : IndMap) (qu : List String),
      JInv edges ids res todo qu ind →
      (∀ e ∈ todo, e ∈ edges ∧ e.source = n) →
      JInv edges ids res [] (processEdges todo ind qu).2 (processEdges todo ind qu).1 := by
  intro todo
  induction todo with
  | nil => intro ind qu hJ _; exact hJ
  | cons e todo' ih =>
    intro ind qu hJ houts
    have he : e ∈ edges := (houts e (by simp)).1
    have htid : e.target ∈ ids := htgt e he
    have hval := hJ.count e.target htid
    have hct : cntTodo (e :: todo') e.target = 1 + cntTodo todo' e.target := by
      rw [cntTodo_cons, if_pos rfl]
    rw [hct] at hval
    have hcast : ((cntRem edges res e.target + (1 + cntTodo todo' e.target) : Nat) : Int) - 1
        = ((cntRem edges res e.target + cntTodo todo' e.target : Nat) : Int) := by
      push_cast
      ring
    have hctne : ∀ t, t ≠ e.target → cntTodo (e :: todo') t = cntTodo todo' t := by
      intro t hne
      rw [cntTodo_cons, if_neg (fun hc => hne hc.symm), Nat.zero_add]
    by_cases hz : cntRem edges res e.target + cntTodo todo' e.target = 0
    · -- the entry drops to zero: the target is pushed
      have hz0 : ((cntRem edges res e.target + cntTodo todo' e.target : Nat) : Int) = 0 := by
        exact_mod_cast hz
      have hstep : processEdges (e :: todo') ind qu
          = processEdges todo'
              (setk ind e.target
                (some ((cntRem edges res e.target + cntTodo todo' e.target : Nat) : Int)))
              (qu ++ [e.target]) := by
        simp only [processEdges, hval]
        rw [hcast, if_pos (by rw [hz0])]
      rw [hstep]
      have hnotin : e.target ∉ res ++ qu := by
        intro hmem
        have := (hJ.ready e.target htid).mp (by
          rcases List.mem_append.mp hmem with h1 | h2
          · exact Or.inl h1
          · exact Or.inr h2)
        rw [hct] at this
        omega
      refine ih _ _ ?_ (fun e' he' => houts e' (by simp [he']))
      refine ⟨?_, ?_, ?_, ?_, ?_, hJ.order⟩
      · have heq2 : res ++ (qu ++ [e.target]) = (res ++ qu) ++ [e.target] := by simp
        rw [heq2]
        refine List.Nodup.append hJ.nodupRQ (by simp) ?_
        intro a ha hb
        simp at hb
        exact hnotin (hb ▸ ha)
      · intro x hx
        rcases List.mem_append.mp hx with hx1 | hx2
        · exact hJ.subsetRQ x (List.mem_append_left _ hx1)
        · rcases List.mem_append.mp hx2 with hx3 | hx4
          · exact hJ.subsetRQ x (List.mem_append_right _ hx3)
          · simp at hx4
            exact hx4 ▸ htid
      · intro t ht
        by_cases hteq : t = e.target
        · subst hteq
          rw [getk_setk, if_pos rfl]
        · rw [getk_setk, if_neg hteq]
          have := hJ.count t ht
          rwa [hctne t hteq] at this
      · intro t ht
        by_cases hteq : t = e.target
        · subst hteq
          constructor
          · intro _; exact hz
          · intro _
            exact Or.inr (List.mem_append_right _ (by simp))
        · have hr := hJ.ready t ht
          rw [hctne t hteq] at hr
          constructor
          · rintro (h1 | h2)
            · exact hr.mp (Or.inl h1)
            · rcases List.mem_append.mp h2 with h3 | h4
              · exact hr.mp (Or.inr h3)
              · simp at h4; exact absurd h4 hteq
          · intro h0
            rcases hr.mpr h0 with h1 | h2
            · exact Or.inl h1
            · exact Or.inr (List.mem_append_left _ h2)
      · intro e' he' htq
        rcases List.mem_append.mp htq with h1 | h2
        · exact hJ.fence e' he' h1
        · simp at h2
          have hA : cntRem edges res e'.target = 0 := by
            rw [h2]; omega
          by_contra hcontra
          have hmem : e' ∈ edges.filter
              (fun x => decide (x.target = e'.target ∧ x.source ∉ res)) := by
            rw [List.mem_filter]
            exact ⟨he', decide_eq_true ⟨rfl, hcontra⟩⟩
          rw [cntRem] at hA
          rw [List.length_eq_zero.mp hA] at hmem
          simp at hmem
    · -- the entry stays nonzero: no push
      have hz0 : ¬ ((cntRem edges res e.target + cntTodo todo' e.target : Nat) : Int) = 0 := by
        exact_mod_cast hz
      have hstep : processEdges (e :: todo') ind qu
          = processEdges todo'
              (setk ind e.target
                (some ((cntRem edges res e.target + cntTodo todo' e.target : Nat) : Int)))
              qu := by
        simp only [processEdges, hval]
        rw [hcast, if_neg (by
          intro hc
          exact hz0 (by simpa using hc))]
      rw [hstep]
      refine ih _ _ ?_ (fun e' he' => houts e' (by simp [he']))
      refine ⟨hJ.nodupRQ, hJ.subsetRQ, ?_, ?_, hJ.fence, hJ.order⟩
      · intro t ht
        by_cases hteq : t = e.target
        · subst hteq
          rw [getk_setk, if_pos rfl]
        · rw [getk_setk, if_neg hteq]
          have := hJ.count t ht
          rwa [hctne t hteq] at this
      · intro t ht
        by_cases hteq : t = e.target
        · subst hteq
          constructor
          · intro hmem
            have := (hJ.ready e.target htid).mp hmem
            rw [hct] at this
            omega
          · intro h0
            exact absurd h0 hz
        · have hr := hJ.ready t ht
          rw [hctne t hteq] at hr
          exact hr

theorem jinv_nil_kinv (edges : List Edge) (ids : List String)
    (res qu : List String) (ind : IndMap) (h : JInv edges ids res [] qu ind) :
    KInv edges ids qu res ind := by
  refine ⟨h.nodupRQ, h.subsetRQ, ?_, ?_, h.fence, h.order⟩
  · intro t ht
    have hc := h.count t ht
    rwa [cntTodo_nil, Nat.add_zero] at hc
  · intro t ht
    have hr := h.ready t ht
    rwa [cntTodo_nil, Nat.add_zero] at hr

theorem loopTS_kinv (edges : List Edge) (ids : List String)
    (htgt : ∀ e ∈ edges, e.target ∈ ids) :
    ∀ (fuel : Nat) (qu res : List String) (ind : IndMap),
      qu.length + posCount ind ≤ fuel →
      KInv edges ids qu res ind →
      ∃ indF, KInv edges ids []
        (loopTS (createEdgeIndex edges) fuel qu ind res) indF := by
  intro fuel
  induction fuel with
  | zero =>
    intro qu res ind hm hK
    have hqu : qu = [] := List.length_eq_zero.mp (by omega)
    subst hqu
    rw [loopTS]
    exact ⟨ind, hK⟩
  | succ f ih =>
    intro qu res ind hm hK
    cases qu with
    | nil =>
      rw [loopTS]
      exact ⟨ind, hK⟩
    | cons nh rest =>
      rw [loopTS_cons, getEdges_bySource]
      have hJ := kinv_pop edges ids res rest nh ind hK
      have houts : ∀ e ∈ edges.filter (fun e' => decide (e'.source = nh)),
          e ∈ edges ∧ e.source = nh := by
        intro e hee
        rw [List.mem_filter] at hee
        exact ⟨hee.1, of_decide_eq_true hee.2⟩
      have hJ2 := processEdges_kinv edges ids htgt nh (res ++ [nh])
        (edges.filter (fun e' => decide (e'.source = nh))) ind rest hJ houts
      have hK2 := jinv_nil_kinv edges ids (res ++ [nh]) _ _ hJ2
      have hmeas := processEdges_measure
        (edges.filter (fun e' => decide (e'.source = nh))) ind rest
      refine ih _ _ _ ?_ hK2
      simp only [List.length_cons] at hm
      omega

-- ## Helper lemmas: completeness of the Kahn loop on acyclic graphs

theorem kahn_complete (edges : List Edge) (ids : List String)
    (hacyc : Acyclic edges) (hsrc : ∀ e ∈ edges, e.source ∈ ids)
    (resF : List String) (indF : IndMap)
    (h : KInv edges ids [] resF indF) : ∀ t ∈ ids, t ∈ resF := by
  by_contra hcon
  push_neg at hcon
  obtain ⟨t0, ht0, ht0n⟩ := hcon
  haveI hfin : Finite {x : String // x ∈ ids} := (ids.finite_toSet).to_subtype
  let r : {x : String // x ∈ ids} → {x : String // x ∈ ids} → Prop :=
    fun a b => Relation.TransGen (edgeStep edges) a.val b.val
  haveI : IsTrans {x : String // x ∈ ids} r :=
    ⟨fun _ _ _ hab hbc => Relation.TransGen.trans hab hbc⟩
  haveI : IsIrrefl {x : String // x ∈ ids} r := ⟨fun a ha => hacyc a.val ha⟩
  have hwf := Finite.wellFounded_of_trans_of_irrefl r
  have hS : ({x : {y : String // y ∈ ids} | x.val ∉ resF}).Nonempty := ⟨⟨t0, ht0⟩, ht0n⟩
  obtain ⟨m, hmS, hmin⟩ := hwf.has_min _ hS
  have hmn : m.val ∉ resF := hmS
  have hcnt : cntRem edges resF m.val ≠ 0 := by
    intro h0
    exact hmn (((h.ready m.val m.2).mpr h0).resolve_right (by simp))
  have hne : edges.filter (fun e => decide (e.target = m.val ∧ e.source ∉ resF)) ≠ [] := by
    intro hnil
    exact hcnt (by rw [cntRem, hnil]; rfl)
  obtain ⟨e, he⟩ := List.exists_mem_of_ne_nil _ hne
  rw [List.mem_filter] at he
  have hcond := of_decide_eq_true he.2
  have haS : (⟨e.source, hsrc e he.1⟩ : {x : String // x ∈ ids})
      ∈ {x : {y : String // y ∈ ids} | x.val ∉ resF} := hcond.2
  have hram : r ⟨e.source, hsrc e he.1⟩ m :=
    Relation.TransGen.single ⟨e, he.1, rfl, hcond.1⟩
  exact hmin _ haS hram

/-- A single edge between two distinct endpoints forms no cycle. -/
theorem acyclic_single (e : Edge) (hne : ¬ e.source = e.target) : Acyclic [e] := by
  intro x hx
  have hstep : ∀ a b, edgeStep [e] a b → a = e.source ∧ b = e.target := by
    rintro a b ⟨e', he', hs, ht⟩
    simp at he'
    subst he'
    exact ⟨hs.symm, ht.symm⟩
  have hchain : ∀ a b, Relation.TransGen (edgeStep [e]) a b → a = e.source ∧ b = e.target := by
    intro a b hab
    induction hab with
    | single h1 => exact hstep _ _ h1
    | tail _ hbc ihab => exact ⟨ihab.1, (hstep _ _ hbc).2⟩
  have h2 := hchain x x hx
  exact hne (h2.1.symm.trans h2.2)

-- ## Claim C3 (counterexample and amended statement)

/-- C3 counterexample: the claim promises that on an acyclic input every
node is returned exactly once, but an edge whose source is not an input node
leaves its target with a positive in-degree that is never decremented: with
node `n` and the dangling edge `x → n` the input is acyclic yet the result
omits `n`. -/
theorem c3_counterexample :
    Acyclic [(⟨"e1", "x", "n"⟩ : Edge)]
    ∧ (⟨"n", .cli, ⟨"t", "", none, none⟩⟩ : Node)
        ∉ topologicalSort [⟨"n", .cli, ⟨"t", "", none, none⟩⟩] [⟨"e1", "x", "n"⟩] :=
  ⟨acyclic_single ⟨"e1", "x", "n"⟩ (by decide), by decide⟩

/-- C3 amended: for every input whose node ids are distinct and whose edges
have both endpoints among the node ids, if the graph is acyclic then
`topologicalSort` returns every input node exactly once (the result is a
permutation of the input), and for every edge u→v, u appears before v in the
returned sequence. -/
theorem c3_topologicalSort_dag (nodes : List Node) (edges : List Edge)
    (hnd : (nodeIds nodes).Nodup)
    (hsrc : ∀ e ∈ edges, e.source ∈ nodeIds nodes)
    (htgt : ∀ e ∈ edges, e.target ∈ nodeIds nodes)
    (hacyc : Acyclic edges) :
    (topologicalSort nodes edges).Perm nodes
    ∧ ∀ e ∈ edges, [e.source, e.target].Sublist
        ((topologicalSort nodes edges).map (fun n => n.id)) := by
  obtain ⟨indF, hK⟩ := loopTS_kinv edges (nodeIds nodes) htgt
    ((tsQueue nodes edges).length + posCount (tsInd0 nodes edges))
    (tsQueue nodes edges) [] (tsInd0 nodes edges) le_rfl
    (kinv_init nodes edges hnd htgt)
  rw [show loopTS (createEdgeIndex edges)
      ((tsQueue nodes edges).length + posCount (tsInd0 nodes edges))
      (tsQueue nodes edges) (tsInd0 nodes edges) [] = tsResIds nodes edges from rfl] at hK
  have hcomp : ∀ t ∈ nodeIds nodes, t ∈ tsResIds nodes edges :=
    kahn_complete edges (nodeIds nodes) hacyc hsrc (tsResIds nodes edges) indF hK
  have hnodup : (tsResIds nodes edges).Nodup := by
    have := hK.nodupRQ
    rwa [List.append_nil] at this
  have hsub : ∀ x ∈ tsResIds nodes edges, x ∈ nodeIds nodes := by
    intro x hx
    exact hK.subsetRQ x (by rwa [List.append_nil])
  have hperm : (tsResIds nodes edges).Perm (nodeIds nodes) :=
    (List.subperm_of_subset hnodup hsub).antisymm
      (List.subperm_of_subset hnd hcomp)
  have hmapid := filterMap_lastNode_map_id nodes hnd (tsResIds nodes edges) hsub
  rw [topologicalSort_eq_stages]
  constructor
  · have h1 := hperm.filterMap (fun i => lastNodeWithId nodes i)
    rw [nodeIds_filterMap_lastNode nodes hnd] at h1
    exact h1
  · intro e he
    rw [hmapid]
    have htr : e.target ∈ tsResIds nodes edges := hcomp e.target (htgt e he)
    exact hK.order e he htr

/-- Witness for the amended C3: the two-node chain a → b sorts to [a, b]. -/
theorem c3_topologicalSort_dag_witness :
    (nodeIds [cliNode "a" "", cliNode "b" ""]).Nodup
    ∧ Acyclic [(⟨"e1", "a", "b"⟩ : Edge)]
    ∧ (topologicalSort [cliNode "a" "", cliNode "b" ""]
        [⟨"e1", "a", "b"⟩]).Perm [cliNode "a" "", cliNode "b" ""]
    ∧ (∀ e ∈ [(⟨"e1", "a", "b"⟩ : Edge)], [e.source, e.target].Sublist
        ((topologicalSort [cliNode "a" "", cliNode "b" ""]
          [⟨"e1", "a", "b"⟩]).map (fun n => n.id))) := by
  have h := c3_topologicalSort_dag [cliNode "a" "", cliNode "b" ""]
    [⟨"e1", "a", "b"⟩] (by decide) (by decide) (by decide)
    (acyclic_single ⟨"e1", "a", "b"⟩ (by decide))
  exact ⟨by decide, acyclic_single ⟨"e1", "a", "b"⟩ (by decide), h.1, h.2⟩


end Workflow
